import Mathlib

/-!
# Verification of the ocp-diag-sat memory-verification engine

A shallow embedding in Lean 4 of the parts of the ocp-diag-sat
stress-test engine (src/src/worker.cc, src/src/finelock_queue.cc,
src/src/main.cc, src/src/sat.cc) that the specification's claims are
about, together with proofs settling each claim.

Machine integers are modelled as `ℕ` (or `ℤ` where C uses signed
arithmetic) with explicit `% 2^w` where wrap-around matters.  Cacheline
flushes (`OsLayer::FastFlushSync` / `FastFlushHint`) never modify memory
contents and are therefore dropped from the embedding of the memory
traversals.  Telemetry (`TestStep` logging) is dropped; diagnosis and
error *counts* are modelled explicitly where a claim mentions them.
-/

namespace OcpSat

/-! ## Machine-word basics (sattypes.h `datacast_t`) -/

/-- `2^32`, the number of values of a C `uint32`/`unsigned int`. -/
def w32 : ℕ := 2 ^ 32

/-- `2^64`, the number of values of a C `uint64`. -/
def w64 : ℕ := 2 ^ 64

/-- The 64-bit value whose low 32-bit half is `lo` and whose high half is
`hi` (the `datacast_t` union: `data.l32.l = lo; data.l32.h = hi`).
Assignments into the 32-bit fields truncate, hence the `% w32`. -/
def word64OfHalves (lo hi : ℕ) : ℕ := lo % w32 + w32 * (hi % w32)

/-- Low 32-bit half of a 64-bit word (`data.l32.l` after `data.l64 = w`). -/
def lo32 (w : ℕ) : ℕ := w % w32

/-- High 32-bit half of a 64-bit word (`data.l32.h` after `data.l64 = w`). -/
def hi32 (w : ℕ) : ℕ := w / w32 % w32

/-- A data pattern: worker code only ever consumes a pattern through
`pattern->pattern(index)`, a 32-bit word reproducible from the index
alone (pattern.cc is outside src/, so the pattern is kept abstract as a
function; values are truncated to 32 bits wherever the code stores them
into 32-bit fields). -/
abbrev Pattern := ℕ → ℕ

/-! ## Adler-4 checksum primitives (worker.cc `AdlerAddrCrcC`,
`AdlerAddrMemcpyC`) -/

/-- The four components of an Adler checksum
(`AdlerChecksum::Set(a1, a2, b1, b2)` in adler32memcpy.h). -/
structure AdlerChecksum where
  a1 : ℕ
  a2 : ℕ
  b1 : ℕ
  b2 : ℕ
deriving DecidableEq, Repr

/-- One 64-bit word folded into one lane `(a, b)` of the checksum, low
half then high half, exactly as the unrolled updates
`a += data.l32.l; b += a; a += data.l32.h; b += a;` with `uint64`
wrap-around. -/
def adlerLaneStep (ab : ℕ × ℕ) (w : ℕ) : ℕ × ℕ :=
  let a := (ab.1 + lo32 w) % w64
  let b := (ab.2 + a) % w64
  let a := (a + hi32 w) % w64
  let b := (b + a) % w64
  (a, b)

/-- In tag mode the word at index `i ≡ 0 (mod 8)` (one tag word per
64-byte cacheline) contributes the *pattern* words
`pattern(i << 1), pattern((i << 1) + 1)` to the checksum instead of the
memory contents (worker.cc:1102-1113 and 992-1011). -/
def adlerLaneInput (pat : Pattern) (i w : ℕ) : ℕ :=
  if i % 8 = 0 then word64OfHalves (pat (2 * i)) (pat (2 * i + 1)) else w

/-- The main loop of `AdlerAddrCrcC`: words are consumed two at a time,
even-index words feeding lane `(a1, b1)` and odd-index words feeding
lane `(a2, b2)`.  `i` is the index of the first word of the current
pair.  (For an odd word count the C code would read past the end of the
buffer; the embedding simply stops, and every claim about the function
restricts to even counts.) -/
def adlerAddrCrcLoop (pat : Pattern) :
    List ℕ → ℕ → ℕ × ℕ → ℕ × ℕ → (ℕ × ℕ) × (ℕ × ℕ)
  | [], _, l1, l2 => (l1, l2)
  | [w], i, l1, l2 => (adlerLaneStep l1 (adlerLaneInput pat i w), l2)
  | w1 :: w2 :: ws, i, l1, l2 =>
      adlerAddrCrcLoop pat ws (i + 2)
        (adlerLaneStep l1 (adlerLaneInput pat i w1)) (adlerLaneStep l2 w2)

/-- `WorkerThread::AdlerAddrCrcC` (worker.cc:1080-1132).  `src` is the
buffer as a list of 64-bit words (`count = size_in_bytes / 8` entries).
Returns `none` exactly when the C function returns false without
touching the caller's checksum, i.e. when `count > 2^19`
(worker.cc:1087); otherwise `some` of the checksum that `Set` stores. -/
def AdlerAddrCrcC (pat : Pattern) (src : List ℕ) : Option AdlerChecksum :=
  if src.length > 2 ^ 19 then none
  else
    let r := adlerAddrCrcLoop pat src 0 (1, 0) (1, 0)
    some ⟨r.1.1, r.2.1, r.1.2, r.2.2⟩

/-- The destination word written by `AdlerAddrMemcpyC` at index `i`:
tag positions (`i ≡ 0 (mod 8)`) receive the destination address tag
`addr_to_tag(&dstmem64[i])` (the address itself, worker.cc:1009-1010);
all other positions receive the source word. -/
def adlerMemcpyDstWord (dstBase : ℕ) (i w : ℕ) : ℕ :=
  if i % 8 = 0 then (dstBase + 8 * i) % w64 else w

/-- `WorkerThread::AdlerAddrMemcpyC` (worker.cc:968-1032).  Same length
guard and same checksum as `AdlerAddrCrcC`; additionally produces the
destination buffer contents.  `dstBase` is the virtual address of
`dstmem64[0]`. -/
def AdlerAddrMemcpyC (pat : Pattern) (dstBase : ℕ) (src : List ℕ) :
    Option (AdlerChecksum × List ℕ) :=
  if src.length > 2 ^ 19 then none
  else
    let r := adlerAddrCrcLoop pat src 0 (1, 0) (1, 0)
    some (⟨r.1.1, r.2.1, r.1.2, r.2.2⟩,
      src.zipWith (fun w i => adlerMemcpyDstWord dstBase i w)
        (List.range src.length))

/-- One halfword folded into one lane: `a ← a + h; b ← b + a`, 64-bit. -/
def adlerHalfStep (ab : ℕ × ℕ) (h : ℕ) : ℕ × ℕ :=
  ((ab.1 + h) % w64, (ab.2 + (ab.1 + h) % w64) % w64)

/-- Specification-side Adler-4 recurrence, from the spec's words: one
lane is updated per 32-bit halfword as `a ← a + word; b ← b + a`,
all components 64-bit, starting from `(1, 0)`. -/
def adlerSpecLane (halves : List ℕ) : ℕ × ℕ :=
  halves.foldl adlerHalfStep (1, 0)

/-- The tag-substituted word stream starting at word index `i`: the
memory words with each tag position replaced by the corresponding
pattern words. -/
def tagSubst (pat : Pattern) : ℕ → List ℕ → List ℕ
  | _, [] => []
  | i, w :: ws => adlerLaneInput pat i w :: tagSubst pat (i + 1) ws

/-- The words at even positions (0, 2, 4, …) of a list. -/
def everyOther {α : Type} : List α → List α
  | [] => []
  | [w] => [w]
  | w1 :: _ :: ws => w1 :: everyOther ws

/-- A word list expanded into its stream of 32-bit halfwords, low half
first. -/
def halfwords (l : List ℕ) : List ℕ := l.flatMap (fun w => [lo32 w, hi32 w])

/-- Specification-side checksum, from the spec's words: the buffer is
read as 64-bit words (tag positions contributing the pattern words
instead); words at even positions update lane `(a1, b1)` and words at
odd positions update lane `(a2, b2)`, one 32-bit halfword at a time by
the Adler recurrence `a ← a + word; b ← b + a`. -/
def AdlerAddrCrcSpec (pat : Pattern) (src : List ℕ) : AdlerChecksum :=
  let tagged := src.mapIdx (fun i w => adlerLaneInput pat i w)
  let l1 := adlerSpecLane (halfwords (everyOther tagged))
  let l2 := adlerSpecLane (halfwords (everyOther (tagged.drop 1)))
  ⟨l1.1, l2.1, l1.2, l2.2⟩

/-! ## Fine-grain page entry queue (finelock_queue.cc, queue.h) -/

/-- `struct page_entry` (queue.h:31-41).  The `pattern` and
`lastpattern` fields are nullable `Pattern *` pointers, modelled as
optional pattern identifiers. -/
structure page_entry where
  offset : ℕ
  addr : ℕ
  paddr : ℕ
  pattern : Option ℕ
  tag : ℤ
  touch : ℕ
  ts : ℕ
  lastcpu : ℕ
  lastpattern : Option ℕ
deriving DecidableEq, Repr

/-- `FineLockPEQueue::page_is_valid` (finelock_queue.h:57-59). -/
def page_is_valid (pe : page_entry) : Bool := pe.pattern.isSome

/-- `FineLockPEQueue::page_is_empty` (finelock_queue.h:61-63). -/
def page_is_empty (pe : page_entry) : Bool := pe.pattern.isNone

/-- The mutable state of a `FineLockPEQueue` with `q_size_ = n`: the
page array `pages_`, the per-page-entry lock array `pagelocks_`
(`true` = locked) and `page_size_`. -/
structure FineLockPEQueue (n : ℕ) where
  pages : Fin n → page_entry
  pagelocks : Fin n → Bool
  page_size : ℕ

/-- `FineLockPEQueue::PutEmpty` (finelock_queue.cc:344-354).  `pe` is
the caller's (possibly null) handle.  Releasing the slot mutex is
modelled as setting the lock to `false`, with `pthread_mutex_unlock`
returning 0 (success) as it does for a normal mutex, so the function
returns true exactly when it reaches the store. -/
def PutEmpty {n : ℕ} (q : FineLockPEQueue n) (pe : Option page_entry) :
    Bool × FineLockPEQueue n :=
  match pe with
  | none => (false, q)
  | some pe =>
      if n = 0 then (false, q)
      else
        let index := pe.offset / q.page_size
        if h : index < n then
          (true,
           { q with
               pages := fun j =>
                 if j = ⟨index, h⟩ then { pe with pattern := none } else q.pages j,
               pagelocks := fun j =>
                 if j = ⟨index, h⟩ then false else q.pagelocks j })
        else (false, q)

/-- `FineLockPEQueue::PutValid` (finelock_queue.cc:360-368). -/
def PutValid {n : ℕ} (q : FineLockPEQueue n) (pe : Option page_entry) :
    Bool × FineLockPEQueue n :=
  match pe with
  | none => (false, q)
  | some pe =>
      if ¬ page_is_valid pe then (false, q)
      else if n = 0 then (false, q)
      else
        let index := pe.offset / q.page_size
        if h : index < n then
          (true,
           { q with
               pages := fun j => if j = ⟨index, h⟩ then pe else q.pages j,
               pagelocks := fun j => if j = ⟨index, h⟩ then false else q.pagelocks j })
        else (false, q)

/-! ## Orchestrator exit status (main.cc, sat.cc) -/

/-- `Sat::GetTotalErrorCount` (sat.cc:1835-1848): the sum of
`GetErrorCount()` over every worker thread (error counts are
non-negative accumulators). -/
def GetTotalErrorCount (workerErrors : List ℕ) : ℕ := workerErrors.sum

/-- Modelled from the spec: sat.h is not under src/, so the `Sat`
accessors consumed by main.cc are modelled from spec §7:
`bad_status()` marks the run's status flag bad (so `status() != 0`
exactly when some fatal issue / diagnosis marked the run failed), and
`errors()` returns the error count recorded at teardown, which
sat.cc:1709 sets from `GetTotalErrorCount`. -/
structure SatRun where
  badStatus : Bool
  workerErrors : List ℕ

/-- The exit-status computation at the end of `main` (main.cc:34-47). -/
def mainExitCode (s : SatRun) : ℕ :=
  if s.badStatus then 1
  else if GetTotalErrorCount s.workerErrors ≠ 0 then 1
  else 0

/-! ## WorkerStatus pause/resume/stop (worker.cc:134-235, worker.h) -/

/-- `WorkerStatus::Status` (worker.h:131). -/
inductive WStatus
  | RUN
  | PAUSE
  | STOP
deriving DecidableEq, Repr

/-- The three control-thread operations that change `status_`. -/
inductive WSOp
  | pauseWorkers
  | resumeWorkers
  | stopWorkers
deriving DecidableEq, Repr

/-- Effect of one operation on `status_`: each of `PauseWorkers`,
`ResumeWorkers` and `StopWorkers` (worker.cc:163-173) performs exactly
one unconditional `SetStatus` swap (worker.h:170-176); the barrier
rendezvous they may additionally perform does not touch `status_`. -/
def applyOp : WStatus → WSOp → WStatus
  | _, .pauseWorkers => .PAUSE
  | _, .resumeWorkers => .RUN
  | _, .stopWorkers => .STOP

/-- The status after executing a sequence of operations from the
initial `RUN` status (the constructor initialises `status_(RUN)`,
worker.h:75). -/
def statusAfter (ops : List WSOp) : WStatus := ops.foldl applyOp .RUN

/-- The documented call protocol (worker.h:84-106): `PauseWorkers` and
`ResumeWorkers` may only be called between `Initialize()` and
`StopWorkers()`; `PauseWorkers` must not be called twice without an
intervening `ResumeWorkers`; `ResumeWorkers` may only be called
directly after `PauseWorkers`; `StopWorkers` may only be called once.
`inPause` records whether the previous operation was an unanswered
`PauseWorkers`. -/
def protocolOK : Bool → List WSOp → Bool
  | _, [] => true
  | inPause, op :: rest =>
      match op with
      | .pauseWorkers => !inPause && protocolOK true rest
      | .resumeWorkers => inPause && protocolOK false rest
      | .stopWorkers => rest.isEmpty

/-- The status transitions the spec allows: RUN→PAUSE, PAUSE→RUN,
RUN→STOP, PAUSE→STOP. -/
def allowedTransition (s s' : WStatus) : Prop :=
  (s = .RUN ∧ s' = .PAUSE) ∨ (s = .PAUSE ∧ s' = .RUN) ∨
  (s = .RUN ∧ s' = .STOP) ∨ (s = .PAUSE ∧ s' = .STOP)

instance (s s' : WStatus) : Decidable (allowedTransition s s') := by
  unfold allowedTransition
  infer_instance

/-! ## CheckRegion: the slow word-by-word comparator
(worker.cc:674-846), embedded for `tag_mode_ = false` -/

/-- The expected 64-bit word at word index `i`:
`data.l32.l = pattern->pattern(index); data.l32.h = pattern->pattern(index + 1)`
with `index = 2 * i + pattern_offset` (worker.cc:694-698). -/
def expectedWord (pat : Pattern) (poff i : ℕ) : ℕ :=
  word64OfHalves (pat (2 * i + poff)) (pat (2 * i + poff + 1))

/-- `kErrorLimit` (worker.cc:680): capacity of the bounded error
queue. -/
def kErrorLimit : ℕ := 128

/-- The first scan of `CheckRegion` (worker.cc:689-722): records up to
`kErrorLimit` error records `(word index, actual, expected)` in order;
on the mismatch that would overflow the queue it sets `page_error` and
breaks.  Returns the recorded queue and the `page_error` flag. -/
def scanRecorded (pat : Pattern) (poff : ℕ) :
    List ℕ → ℕ → List (ℕ × ℕ × ℕ) → List (ℕ × ℕ × ℕ) × Bool
  | [], _, rec => (rec, false)
  | w :: ws, i, rec =>
      if w = expectedWord pat poff i then scanRecorded pat poff ws (i + 1) rec
      else if rec.length < kErrorLimit then
        scanRecorded pat poff ws (i + 1) (rec ++ [(i, w, expectedWord pat poff i)])
      else (rec, true)

/-- The states of the whole-block re-pattern automaton
(worker.cc:729-732). -/
inductive BlockState
  | kGood
  | kBad
  | kGoodAgain
  | kNoMatch
deriving DecidableEq, Repr

/-- One whole-block re-pattern scan (worker.cc:740-785).  NOTE: the
code computes BOTH `expected` and `possible` from the assigned
`pattern` (worker.cc:748-752); the alternate pattern is used only for
the self-match skip and in the report text.  The embedding reproduces
this faithfully.  Reaching `kNoMatch` breaks the loop in C; here the
state absorbs, which leaves the same final triple. -/
def blockScan (pat : Pattern) (poff : ℕ) :
    List ℕ → ℕ → BlockState → ℕ → ℕ → BlockState × ℕ × ℕ
  | [], _, st, bs, be => (st, bs, be)
  | w :: ws, i, st, bs, be =>
      let expected := expectedWord pat poff i
      let possible := expectedWord pat poff i
      match st with
      | .kGood =>
          if w = expected then blockScan pat poff ws (i + 1) .kGood bs be
          else if w = possible then blockScan pat poff ws (i + 1) .kBad i i
          else (.kNoMatch, bs, be)
      | .kBad =>
          if w = possible then blockScan pat poff ws (i + 1) .kBad bs i
          else if w = expected then blockScan pat poff ws (i + 1) .kGoodAgain bs be
          else (.kNoMatch, bs, be)
      | .kGoodAgain =>
          if w = expected then blockScan pat poff ws (i + 1) .kGoodAgain bs be
          else (.kNoMatch, bs, be)
      | .kNoMatch => (.kNoMatch, bs, be)

/-- The block-analysis loop over the catalog (worker.cc:726-802):
for every pattern index `p` other than the assigned one, run
`blockScan`; a final state of `kBad` or `kGoodAgain` produces a report
`(p, badstart, badend)` and the `ProcessError(&recorded[0], …)` call
repairs the first recorded error's word in the block
(worker.cc:793 together with worker.cc:619: write expected, flush). -/
def blockAnalysisLoop (pat : Pattern) (poff : ℕ) (firstIdx firstExpected : ℕ)
    (patIdx : ℕ) : List ℕ → List ℕ → List (ℕ × ℕ × ℕ) × List ℕ
  | [], block => ([], block)
  | p :: ps, block =>
      if p = patIdx then blockAnalysisLoop pat poff firstIdx firstExpected patIdx ps block
      else
        let r := blockScan pat poff block 0 .kGood 0 0
        if r.1 = .kBad ∨ r.1 = .kGoodAgain then
          let block1 := block.set firstIdx firstExpected
          let rest := blockAnalysisLoop pat poff firstIdx firstExpected patIdx ps block1
          ((p, r.2.1, r.2.2) :: rest.1, rest.2)
        else blockAnalysisLoop pat poff firstIdx firstExpected patIdx ps block

/-- Processing the recorded error queue (worker.cc:805-807): every
recorded error is repaired in order (`ProcessError` writes the expected
value back, worker.cc:619). -/
def repairAll : List (ℕ × ℕ × ℕ) → List ℕ → List ℕ
  | [], block => block
  | (i, _, e) :: rest, block => repairAll rest (block.set i e)

/-- The overflow pass (worker.cc:809-841): rescan the whole region,
`ProcessError` (count and repair) every remaining mismatch.  The pass
repairs each word before moving to the next, so it is equivalent to the
positional rescan embedded here. -/
def overflowPass (pat : Pattern) (poff : ℕ) : List ℕ → ℕ → ℕ × List ℕ
  | [], _ => (0, [])
  | w :: ws, i =>
      let e := expectedWord pat poff i
      let rest := overflowPass pat poff ws (i + 1)
      if w = e then (rest.1, w :: rest.2) else (rest.1 + 1, e :: rest.2)

/-- The outcome of `WorkerThread::CheckRegion`: the count of queued
errors, the count of overflow errors (the returned value and the
`errorcount_` increment are their sum), the Block Error reports, the
`page_error` flag and the final contents of the scanned region. -/
structure CheckRegionResult where
  errors : ℕ
  overflowErrors : ℕ
  blockReports : List (ℕ × ℕ × ℕ)
  pageError : Bool
  finalBlock : List ℕ
deriving DecidableEq, Repr

/-- `WorkerThread::CheckRegion` (worker.cc:676-846) with
`tag_mode_ = false`, on a region given as a list of 64-bit words.
`catalogSize` is `patternlist_->Size()` and `patIdx` the index of the
assigned pattern in the catalog (pointer identity between patterns is
modelled as index identity). -/
def CheckRegion (catalogSize patIdx : ℕ) (pat : Pattern) (poff : ℕ)
    (block : List ℕ) : CheckRegionResult :=
  let scanned := scanRecorded pat poff block 0 []
  let firstIdx := (scanned.1.headD (0, 0, 0)).1
  let firstExpected := (scanned.1.headD (0, 0, 0)).2.2
  let analysed :=
    if scanned.2 then
      blockAnalysisLoop pat poff firstIdx firstExpected patIdx
        (List.range catalogSize) block
    else ([], block)
  let block2 := repairAll scanned.1 analysed.2
  let overflowed :=
    if scanned.2 then overflowPass pat poff block2 0 else (0, block2)
  ⟨scanned.1.length, overflowed.1, analysed.1, scanned.2, overflowed.2⟩

/-- Number of miscompare diagnoses `CheckRegion` emits: one
`ProcessError` per queued error (worker.cc:805-807), one per overflow
error (worker.cc:837) and one extra `ProcessError(&recorded[0], …)` per
Block Error report (worker.cc:793). -/
def CheckRegionResult.diagnoses (r : CheckRegionResult) : ℕ :=
  r.errors + r.overflowErrors + r.blockReports.length

/-! ## Fill and invert traversals (worker.cc:463-504, 1236-1284) -/

/-- `WorkerThread::FillPage` with `tag_mode_ = false`
(worker.cc:492-501), at 64-bit granularity: word `i` receives
`pattern(2i)` in its low half and `pattern(2i + 1)` in its high half. -/
def FillPage64 (pat : Pattern) (nwords : ℕ) : List ℕ :=
  (List.range nwords).map (expectedWord pat 0)

/-- Bitwise complement of a 32-bit word (`*iter = ~(*iter)` on
`unsigned int`). -/
def compl32 (w : ℕ) : ℕ := (w32 - 1) - w % w32

/-- `InvertThread::InvertPageUp` (worker.cc:1261-1284): traverse the
page upward, complementing every 32-bit word (the interleaved cacheline
flush hints do not change memory).  The page is given as a list of
32-bit words. -/
def InvertPageUp (page : List ℕ) : List ℕ := page.map compl32

/-- `InvertThread::InvertPageDown` (worker.cc:1236-1258): traverse the
page downward (from the last word to the first), complementing every
32-bit word. -/
def InvertPageDown (page : List ℕ) : List ℕ :=
  (page.reverse.map compl32).reverse

/-- The four traversals of one invert iteration in order
(worker.cc:1522-1528): up, down, down, up. -/
def invertFour (page : List ℕ) : List ℕ :=
  InvertPageUp (InvertPageDown (InvertPageDown (InvertPageUp page)))

/-- A 4 KiB block of a page held as 64-bit words: block `b` is words
`512*b … 512*b + 511` (`CrcCheckPage`, worker.cc:861-863). -/
def block64 (b : ℕ) (page : List ℕ) : List ℕ :=
  (page.drop (512 * b)).take 512

/-- Reassemble 64-bit words from a page of 32-bit words (little-endian:
word `i` has halves `2*i` and `2*i + 1`). -/
def words64 : List ℕ → List ℕ
  | lo :: hi :: ws => word64OfHalves lo hi :: words64 ws
  | _ => []

/-! ## Cache-coherency probe (worker.cc:2358-2479) -/

/-- `kRandomPolynomial` (worker.h:631). -/
def kRandomPolynomial : ℕ := 0xD800000000000000

/-- `CpuCacheCoherencyThread::SimpleRandom` (worker.cc:2373-2375):
`(seed >> 1) ^ (-(seed & 1) & kRandomPolynomial)` on `uint64` — the
mask `-(seed & 1)` is all-ones exactly when the seed is odd. -/
def SimpleRandom (seed : ℕ) : ℕ :=
  (seed / 2) ^^^ (if seed % 2 = 1 then kRandomPolynomial else 0)

/-- The per-thread counter offset inside one cacheline record
(worker.cc:2407-2414, recomputed identically at 2425-2430): reversed as
`(thread_count & ~1) - thread_num` for odd-numbered threads at
odd-numbered cache lines. -/
def ccOffset (threadNum threadCount line : ℕ) : ℕ :=
  if (line &&& threadNum) &&& 1 = 1 then
    (threadCount - threadCount % 2) - threadNum
  else threadNum

/-- The cacheline counters: `cc_cacheline_data[line].num[offset]`
(worker.h:39-41), an array of `char` cells, so stored values wrap mod
256. -/
abbrev CCCells := ℕ → ℕ → ℕ

/-- The increment burst of one loop iteration (worker.cc:2400-2417):
`K` rounds of `r ← SimpleRandom r; line ← r % C;`
`counters[line][offset]++`.  Returns the final seed and cells. -/
def ccIncLoop (C threadNum threadCount : ℕ) :
    ℕ → ℕ → CCCells → ℕ × CCCells
  | 0, r, cells => (r, cells)
  | k + 1, r, cells =>
      let r1 := SimpleRandom r
      let line := r1 % C
      let off := ccOffset threadNum threadCount line
      ccIncLoop C threadNum threadCount k r1
        (fun l o => if l = line ∧ o = off then (cells l o + 1) % 256 else cells l o)

/-- The value a stored byte contributes when read back through the
`char` cell into the `int` sum (x86 linux `char` is signed). -/
def signedByte (b : ℕ) : ℤ :=
  if b % 256 < 128 then (b % 256 : ℤ) else (b % 256 : ℤ) - 256

/-- The sum-and-zero pass (worker.cc:2423-2434): visit the cache lines
in order, add this thread's counter to the running sum and zero the
cell. -/
def ccSumLoop (threadNum threadCount : ℕ) :
    List ℕ → CCCells → ℤ → ℤ × CCCells
  | [], cells, sum => (sum, cells)
  | line :: rest, cells, sum =>
      let off := ccOffset threadNum threadCount line
      ccSumLoop threadNum threadCount rest
        (fun l o => if l = line ∧ o = off then 0 else cells l o)
        (sum + signedByte (cells line off))

/-- The observable outcome of one iteration of the
`CpuCacheCoherencyThread::Work` loop body. -/
structure CCIterResult where
  seed : ℕ
  cells : CCCells
  sum : ℤ
  diagnosis : Bool

/-- One iteration of the cache-coherency work loop
(worker.cc:2399-2451) for this thread running alone (no concurrent
writers): `K = cc_inc_count_` increments, then the sum-and-zero pass
over all `C` cache lines, the error-injection override
(worker.cc:2435), and the byte-truncated comparison
`(cc_global_num & 0xff) != (cc_inc_count_ & 0xff)` (worker.cc:2443)
deciding whether a cache-coherency fail diagnosis is emitted and the
error count incremented. -/
def ccIteration (C threadNum threadCount K : ℕ) (errorInjection : Bool)
    (r : ℕ) (cells : CCCells) : CCIterResult :=
  let inc := ccIncLoop C threadNum threadCount K r cells
  let summed := ccSumLoop threadNum threadCount (List.range C) inc.2 0
  let globalNum : ℤ := if errorInjection then -1 else summed.1
  ⟨inc.1, summed.2, globalNum,
    decide (globalNum.emod 256 ≠ (K : ℤ).emod 256)⟩

/-! ## CPU-frequency probe (worker.cc:3165-3235) -/

/-- One MSR sample of `{TSC, APERF, MPERF}` plus the wall-clock
timestamp (`CpuDataType`: `msrs[kMsrLast]` and `struct timeval tv`).
The MSR values are `uint64`; the timeval fields are
seconds/microseconds. -/
structure CpuDataType where
  tsc : ℕ
  aperf : ℕ
  mperf : ℕ
  tv_sec : ℤ
  tv_usec : ℤ
deriving DecidableEq, Repr

/-- `CpuFreqThread::ComputeDelta` (worker.cc:3190-3215): rejects the
interval (returns false) if any MSR went backwards
(`previous->msrs[msr] > current->msrs[msr]`) or the TSC advanced by
fewer than `1000 * 1000` cycles; otherwise produces the component-wise
deltas, with `timersub` on the timestamps. -/
def ComputeDelta (current previous : CpuDataType) : Option CpuDataType :=
  if previous.tsc > current.tsc then none
  else if previous.aperf > current.aperf then none
  else if previous.mperf > current.mperf then none
  else if current.tsc - previous.tsc < 1000 * 1000 then none
  else some ⟨current.tsc - previous.tsc, current.aperf - previous.aperf,
    current.mperf - previous.mperf, current.tv_sec - previous.tv_sec,
    current.tv_usec - previous.tv_usec⟩

/-- The C cast `static_cast<int>(q)` on a floating value: truncation
toward zero. -/
def truncToInt (q : ℚ) : ℤ := if 0 ≤ q then ⌊q⌋ else -⌊-q⌋

/-- The C `%` on ints (truncated division, sign of the dividend). -/
def cMod (a b : ℤ) : ℤ := a - b * (a.tdiv b)

/-- The constructor `CpuFreqThread::CpuFreqThread` (worker.cc:3172-3182)
normalises the configured rounding grain: `round = 0` becomes grain 1
with rounding value `0.5`, otherwise the grain is kept and the rounding
value is `round / 2.0`.  Returns `(round_, round_value_)`. -/
def cpuFreqRoundInit (round : ℕ) : ℤ × ℚ :=
  if round = 0 then (1, 1 / 2) else ((round : ℤ), (round : ℚ) / 2)

/-- `CpuFreqThread::ComputeFrequency` (worker.cc:3220-3235): on a valid
delta, the frequency in MHz is
`ΔTSC / 10^6 * ΔAPERF / ΔMPERF / interval` with
`interval = Δsec + Δusec / 10^6` seconds, rounded by
`computed = (int)(frequency + round_value_); freq = computed - computed % round_`.
The C `double` arithmetic is idealised as exact rational arithmetic. -/
def ComputeFrequency (current previous : CpuDataType) (round : ℕ) :
    Option ℤ :=
  (ComputeDelta current previous).map fun delta =>
    let rv := cpuFreqRoundInit round
    let interval : ℚ := (delta.tv_sec : ℚ) + (delta.tv_usec : ℚ) / 1000000
    let frequency : ℚ :=
      (delta.tsc : ℚ) / 1000000 * (delta.aperf : ℚ) / (delta.mperf : ℚ) /
        interval
    let computed : ℤ := truncToInt (frequency + rv.2)
    computed - cMod computed rv.1

/-- The spec's frequency formula, from its words: MHz =
`ΔTSC/10⁶ × ΔAPERF/ΔMPERF × 1/Δt` (deltas of one interval, `Δt` in
seconds). -/
def specFrequencyMHz (current previous : CpuDataType) : ℚ :=
  ((current.tsc - previous.tsc : ℕ) : ℚ) / 1000000 *
    ((current.aperf - previous.aperf : ℕ) : ℚ) /
    ((current.mperf - previous.mperf : ℕ) : ℚ) /
    (((current.tv_sec - previous.tv_sec : ℤ) : ℚ) +
      ((current.tv_usec - previous.tv_usec : ℤ) : ℚ) / 1000000)

/-! ## The fine-lock queue's linear-congruential walk
(finelock_queue.cc:41-147, 254-306) -/

/-- The inner `while (((remaining / i) * i) == remaining) remaining /= i;`
of `getA` together with the preceding single division: divide out every
factor `i` (finelock_queue.cc:114-117).  The `0 < r` guard only serves
termination of the embedding; the code never reaches `r = 0`. -/
def removeFactors (i : ℕ) (r : ℕ) : ℕ :=
  if hir : 2 ≤ i ∧ i ∣ r ∧ 0 < r then removeFactors i (r / i) else r
termination_by r
decreasing_by exact Nat.div_lt_self hir.2.2 hir.1

/-- The trial-division loop of `FineLockPEQueue::getA`
(finelock_queue.cc:113-120): for `i = 2 … m`, if `i` divides the
remaining value, divide out all its occurrences and multiply it into
`a`.  Returns the final `a`. -/
def getALoop (m : ℕ) (i r a : ℕ) : ℕ :=
  if i ≤ m then
    if i ∣ r then getALoop m (i + 1) (removeFactors i r) (a * i)
    else getALoop m (i + 1) r a
  else a
termination_by m + 1 - i

/-- `FineLockPEQueue::getA` (finelock_queue.cc:105-124): `a` starts at
2 when `4 ∣ m` and 1 otherwise, collects each distinct prime factor of
`m` once, and the result is `(a + 1) % m`. -/
def getA (m : ℕ) : ℕ :=
  (getALoop m 2 m (if m % 4 = 0 then 2 else 1) + 1) % m

/-- The compositeness test inside `FineLockPEQueue::getC`
(finelock_queue.cc:134-140): some `i ∈ [2, p)` divides `p`. -/
def hasDivisorBelow (p : ℕ) : Bool :=
  (List.range' 2 (p - 2)).any (fun i => p % i = 0)

/-- The downward search of `FineLockPEQueue::getC`
(finelock_queue.cc:133-146): the first (largest) `possible_prime ≤ p`
that passes the divisor test, or 1. -/
def getCLoop (p : ℕ) : ℕ :=
  if 1 < p then
    if hasDivisorBelow p then getCLoop (p - 1) else p
  else 1

/-- `FineLockPEQueue::getC` (finelock_queue.cc:128-147): the largest
prime `≤ (3m)/4 + 1`. -/
def getC (m : ℕ) : ℕ := getCLoop ((3 * m) / 4 + 1)

/-- Whether `m` admits a nontrivial multiplier, i.e. the constructor's
loop condition `a == 1` fails at `m`. -/
def nontrivialA (m : ℕ) : Bool := getA m % m ≠ 1

/-- The constructor's `while (a == 1) { modlength++; … }` search
(finelock_queue.cc:89-92), with explicit fuel; the real search always
succeeds within the fuel (proved via powers of two). -/
def findModlengthAux : ℕ → ℕ → ℕ
  | 0, n => n
  | fuel + 1, n => if nontrivialA n then n else findModlengthAux fuel (n + 1)

/-- The final `modlength_` chosen by the constructor for `queuesize ≥ 3`. -/
def findModlength (n : ℕ) : ℕ := findModlengthAux (2 * n + 8) n

/-- The generator `(a_, c_, modlength_)` chosen by the
`FineLockPEQueue` constructor (finelock_queue.cc:69-99). -/
def queueGen (queuesize : ℕ) : ℕ × ℕ × ℕ :=
  if queuesize < 3 then (1, 1, queuesize)
  else
    let m := findModlength queuesize
    (getA m % m, getC m, m)

/-- One LCG step `next = (a * next + c) % m`
(finelock_queue.cc:269). -/
def lcgStep (a c m x : ℕ) : ℕ := (a * x + c) % m

/-- The `while (next_try >= q_size_)` skip loop
(finelock_queue.cc:270-274), with explicit fuel (the generator's full
period makes it terminate within `m` extra steps; on fuel exhaustion
the embedding returns the current value). -/
def skipLoop (a c m N : ℕ) : ℕ → ℕ → ℕ
  | 0, x => x
  | fuel + 1, x => if x < N then x else skipLoop a c m N fuel (lcgStep a c m x)

/-- The advance of `next_try` in one search iteration: one LCG step
followed by the out-of-range skip loop. -/
def nextStep (a c m N x : ℕ) : ℕ := skipLoop a c m N (m + 1) (lcgStep a c m x)

/-- The successive values of `next_try` used by the `q_size_` loop
iterations of `GetRandomWithPredicateTag` (starting from
`next_try = 1`, finelock_queue.cc:261). -/
def walkNexts (a c m N : ℕ) : ℕ → ℕ → List ℕ
  | 0, _ => []
  | n + 1, v => v :: walkNexts a c m N n (nextStep a c m N v)

/-- The slot indices `(next_try + first_try) % q_size_` probed by one
full search (finelock_queue.cc:264-303). -/
def walkIndices (a c m N first : ℕ) : List ℕ :=
  (walkNexts a c m N N 1).map (fun v => (v + first) % N)

/-- The search loop of `GetRandomWithPredicateTag`
(finelock_queue.cc:264-305) for a single-threaded caller: `match?` is
the dirty-read predicate (valid/empty plus tag filter) on slot indices,
`locked` the slot-lock state; `pthread_mutex_trylock` succeeds exactly
on an unlocked slot and the re-check under the lock reads the same
state, so an iteration returns its index exactly when
`match? index && !locked index`. -/
def searchAux (a c m N : ℕ) (match? locked : ℕ → Bool) (first : ℕ) :
    ℕ → ℕ → Option ℕ
  | 0, _ => none
  | n + 1, v =>
      let index := (v + first) % N
      if match? index && !locked index then some index
      else searchAux a c m N match? locked first n (nextStep a c m N v)

/-- `GetRandomWithPredicateTag`'s full search over all `q_size_`
iterations. -/
def GetRandomSearch (a c m N : ℕ) (match? locked : ℕ → Bool)
    (first : ℕ) : Option ℕ :=
  searchAux a c m N match? locked first N 1

/-- The geometric sum `1 + a + … + a^(n-1)`, governing the LCG orbit:
`g^[k] x = (a^k x + c·S k) % m`. -/
def lcgSum (a n : ℕ) : ℕ := ∑ i ∈ Finset.range n, a ^ i

/-- The raw LCG orbit `x, g x, g (g x), …` with `g x = (a*x+c) % m`.
The walk of `GetRandomWithPredicateTag` follows this orbit, skipping
out-of-range points. -/
def lcgOrbit (a c m x : ℕ) : ℕ → ℕ
  | 0 => x
  | k + 1 => lcgStep a c m (lcgOrbit a c m x k)

/-- The number of LCG steps the skip loop takes from `y` before the
first in-range value, capped by the fuel: the orbit time of the value
`skipLoop` returns. -/
def hitDelay (a c m N : ℕ) : ℕ → ℕ → ℕ
  | 0, _ => 0
  | fuel + 1, y =>
      if y < N then 0
      else hitDelay a c m N fuel (lcgStep a c m y) + 1

/-- The orbit times of the successive values of `next_try`: time 0
holds the initial `next_try = 1`, and each iteration advances one LCG
step plus the skip loop's extra steps. -/
def walkTime (a c m N : ℕ) : ℕ → ℕ
  | 0 => 0
  | i + 1 =>
      walkTime a c m N i + 1 +
        hitDelay a c m N (m + 1)
          (lcgStep a c m (lcgOrbit a c m 1 (walkTime a c m N i)))

/-! ## Lemmas about the Adler primitives -/

theorem adlerLaneStep_eq (ab : ℕ × ℕ) (w : ℕ) :
    adlerLaneStep ab w = adlerHalfStep (adlerHalfStep ab (lo32 w)) (hi32 w) :=
  rfl

theorem everyOther_cons {α : Type} (x : α) (l : List α) :
    everyOther (x :: l) = x :: everyOther (l.drop 1) := by
  cases l <;> rfl

theorem halfwords_cons (w : ℕ) (ws : List ℕ) :
    halfwords (w :: ws) = lo32 w :: hi32 w :: halfwords ws := by
  simp [halfwords]

theorem foldl_halfwords (l : List ℕ) (ab : ℕ × ℕ) :
    (halfwords l).foldl adlerHalfStep ab = l.foldl adlerLaneStep ab := by
  induction l generalizing ab with
  | nil => rfl
  | cons w ws ih =>
      rw [halfwords_cons, List.foldl_cons, List.foldl_cons, List.foldl_cons,
        ih, adlerLaneStep_eq]

theorem adlerAddrCrcLoop_eq (pat : Pattern) :
    ∀ (src : List ℕ) (i : ℕ) (l1 l2 : ℕ × ℕ), i % 2 = 0 →
    adlerAddrCrcLoop pat src i l1 l2 =
      ((everyOther (tagSubst pat i src)).foldl adlerLaneStep l1,
       (everyOther ((tagSubst pat i src).drop 1)).foldl adlerLaneStep l2)
  | [], _, _, _, _ => rfl
  | [_], _, _, _, _ => rfl
  | w1 :: w2 :: ws, i, l1, l2, hi => by
      have h2 : (i + 1) % 8 ≠ 0 := by omega
      have hw2 : adlerLaneInput pat (i + 1) w2 = w2 := by
        simp [adlerLaneInput, h2]
      simp only [adlerAddrCrcLoop, tagSubst, List.drop_succ_cons, List.drop_zero]
      rw [everyOther_cons, everyOther_cons]
      simp only [List.drop_succ_cons, List.foldl_cons, hw2]
      exact adlerAddrCrcLoop_eq pat ws (i + 2) _ _ (by omega)

theorem tagSubst_eq_mapIdx (pat : Pattern) (src : List ℕ) :
    ∀ i, tagSubst pat i src = src.mapIdx (fun j w => adlerLaneInput pat (i + j) w) := by
  induction src with
  | nil => intro i; rfl
  | cons w ws ih =>
      intro i
      have harg : (fun (j w : ℕ) => adlerLaneInput pat (i + 1 + j) w)
          = (fun (j w : ℕ) => adlerLaneInput pat (i + (j + 1)) w) := by
        funext j x
        congr 1
        omega
      simp only [tagSubst, List.mapIdx_cons, Nat.add_zero, ih (i + 1), harg]

theorem adlerAddrCrcC_eq_spec (pat : Pattern) (src : List ℕ)
    (hlen : src.length ≤ 2 ^ 19) :
    AdlerAddrCrcC pat src = some (AdlerAddrCrcSpec pat src) := by
  have hmap : src.mapIdx (fun i w => adlerLaneInput pat i w) = tagSubst pat 0 src := by
    simpa using (tagSubst_eq_mapIdx pat src 0).symm
  rw [AdlerAddrCrcC, if_neg (by omega : ¬ src.length > 2 ^ 19)]
  simp only [AdlerAddrCrcSpec, adlerSpecLane, foldl_halfwords, hmap,
    adlerAddrCrcLoop_eq pat src 0 _ _ rfl]

theorem adlerAddrMemcpyC_fst_eq_spec (pat : Pattern) (dstBase : ℕ) (src : List ℕ)
    (hlen : src.length ≤ 2 ^ 19) :
    (AdlerAddrMemcpyC pat dstBase src).map Prod.fst =
      some (AdlerAddrCrcSpec pat src) := by
  have hmap : src.mapIdx (fun i w => adlerLaneInput pat i w) = tagSubst pat 0 src := by
    simpa using (tagSubst_eq_mapIdx pat src 0).symm
  rw [AdlerAddrMemcpyC, if_neg (by omega : ¬ src.length > 2 ^ 19)]
  simp only [AdlerAddrCrcSpec, adlerSpecLane, foldl_halfwords, hmap,
    adlerAddrCrcLoop_eq pat src 0 _ _ rfl]
  rfl

/-! ## Claim C2 -/

/-- C2 counterexample: the claim states that for a word count of at
least `2^19` the primitives return false, but at exactly `2^19` words
(`size_in_bytes = 2^22`) both `AdlerAddrCrcC` and `AdlerAddrMemcpyC`
accept the buffer and return true: the guard at worker.cc:1087 and
worker.cc:977 is `count > (1U << 19)`, not `count ≥ 2^19`. -/
theorem adlerAddr_accepts_pow19_words :
    (AdlerAddrCrcC (fun _ => 0) (List.replicate (2 ^ 19) 0)).isSome = true ∧
    (AdlerAddrMemcpyC (fun _ => 0) 0 (List.replicate (2 ^ 19) 0)).isSome = true := by
  have h : ¬ ((List.replicate (2 ^ 19) (0 : ℕ)).length > 2 ^ 19) := by
    rw [List.length_replicate]
    omega
  constructor
  · rw [AdlerAddrCrcC, if_neg h]
    rfl
  · rw [AdlerAddrMemcpyC, if_neg h]
    rfl

/-- C2 (amended): `AdlerAddrCrcC` and `AdlerAddrMemcpyC` return false
(leaving the caller's checksum untouched, modelled by `none`) exactly
for buffers of *strictly more* than `2^19` 64-bit words; for any even
word count up to `2^19` they return true and the checksum components
`(a1, a2, b1, b2)` are those of the Adler-4 recurrence
(`AdlerAddrCrcSpec`). -/
theorem adlerAddr_guard_and_recurrence (pat : Pattern) (dstBase : ℕ)
    (src : List ℕ) (_heven : src.length % 2 = 0) :
    ((AdlerAddrCrcC pat src).isSome ↔ src.length ≤ 2 ^ 19) ∧
    ((AdlerAddrMemcpyC pat dstBase src).isSome ↔ src.length ≤ 2 ^ 19) ∧
    (src.length ≤ 2 ^ 19 →
      AdlerAddrCrcC pat src = some (AdlerAddrCrcSpec pat src) ∧
      (AdlerAddrMemcpyC pat dstBase src).map Prod.fst =
        some (AdlerAddrCrcSpec pat src)) := by
  refine ⟨?_, ?_, fun hlen => ⟨adlerAddrCrcC_eq_spec pat src hlen,
    adlerAddrMemcpyC_fst_eq_spec pat dstBase src hlen⟩⟩ <;>
  · by_cases h : src.length ≤ 2 ^ 19 <;>
      simp [AdlerAddrCrcC, AdlerAddrMemcpyC, h]

/-- Witness for `adlerAddr_guard_and_recurrence` at the concrete
two-word buffer `[3, 5]`. -/
theorem adlerAddr_guard_and_recurrence_witness :
    ((AdlerAddrCrcC (fun i => i) [3, 5]).isSome ↔ (2 : ℕ) ≤ 2 ^ 19) ∧
    ((AdlerAddrMemcpyC (fun i => i) 64 [3, 5]).isSome ↔ (2 : ℕ) ≤ 2 ^ 19) ∧
    ((2 : ℕ) ≤ 2 ^ 19 →
      AdlerAddrCrcC (fun i => i) [3, 5] =
        some (AdlerAddrCrcSpec (fun i => i) [3, 5]) ∧
      (AdlerAddrMemcpyC (fun i => i) 64 [3, 5]).map Prod.fst =
        some (AdlerAddrCrcSpec (fun i => i) [3, 5])) := by
  simpa using adlerAddr_guard_and_recurrence (fun i => i) 64 [3, 5] (by decide)

/-! ## Claim C7 -/

/-- C7: for a non-null handle whose offset maps to the valid slot
`idx`, `PutEmpty` stores the descriptor with its pattern forced to
null, releases exactly that slot's mutex, leaves every other slot (page
and lock) unchanged and returns true; it returns false and changes
nothing when the handle is null or the computed index is out of range
(which subsumes an empty queue). -/
theorem putEmpty_spec {n : ℕ} (q : FineLockPEQueue n) (pe : page_entry)
    (idx : Fin n) (hidx : (idx : ℕ) = pe.offset / q.page_size) :
    (PutEmpty q (some pe)).1 = true ∧
    (PutEmpty q (some pe)).2.pages idx = { pe with pattern := none } ∧
    (PutEmpty q (some pe)).2.pagelocks idx = false ∧
    (∀ j : Fin n, j ≠ idx →
      (PutEmpty q (some pe)).2.pages j = q.pages j ∧
      (PutEmpty q (some pe)).2.pagelocks j = q.pagelocks j) ∧
    (PutEmpty q (some pe)).2.page_size = q.page_size ∧
    PutEmpty q none = (false, q) ∧
    (∀ pe2 : page_entry, ¬ pe2.offset / q.page_size < n →
      PutEmpty q (some pe2) = (false, q)) := by
  have hn : n ≠ 0 := by
    have := idx.isLt
    omega
  have hlt : pe.offset / q.page_size < n := by
    have := idx.isLt
    omega
  have hfin : (⟨pe.offset / q.page_size, hlt⟩ : Fin n) = idx := by
    apply Fin.ext
    exact hidx.symm
  refine ⟨?_, ?_, ?_, ?_, ?_, rfl, ?_⟩
  · simp [PutEmpty, hn, hlt]
  · simp [PutEmpty, hn, hlt, hfin]
  · simp [PutEmpty, hn, hlt, hfin]
  · intro j hj
    constructor <;> simp [PutEmpty, hn, hlt, hfin, hj]
  · simp [PutEmpty, hn, hlt]
  · intro pe2 h2
    by_cases h0 : n = 0 <;> simp [PutEmpty, h0, h2]

/-- Witness for `putEmpty_spec`: a two-slot queue with page size 4096
and a handle at offset 4096 (slot 1) whose pattern is non-null; the
store really lands in slot 1 with the pattern nulled, slot 0 is
untouched, and a null handle or an out-of-range offset fails. -/
theorem putEmpty_spec_witness :
    let pe0 : page_entry := ⟨0, 0, 0, none, 0xf001, 0, 0, 0, none⟩
    let q : FineLockPEQueue 2 := ⟨fun _ => pe0, fun _ => true, 4096⟩
    let pe : page_entry := ⟨4096, 77, 0, some 3, 1, 5, 9, 2, some 4⟩
    (PutEmpty q (some pe)).1 = true ∧
    (PutEmpty q (some pe)).2.pages 1 = { pe with pattern := none } ∧
    (PutEmpty q (some pe)).2.pagelocks 1 = false ∧
    (PutEmpty q (some pe)).2.pages 0 = pe0 ∧
    (PutEmpty q (some pe)).2.pagelocks 0 = true ∧
    PutEmpty q none = (false, q) ∧
    PutEmpty q (some { pe with offset := 4096 * 5 }) = (false, q) := by
  intro pe0 q pe
  obtain ⟨h1, h2, h3, h4, _, h6, h7⟩ :=
    putEmpty_spec q pe (1 : Fin 2) (by norm_num)
  obtain ⟨h40, h41⟩ := h4 0 (by decide)
  exact ⟨h1, h2, h3, h40, h41, h6, h7 _ (by norm_num)⟩

/-! ## Claim C10 -/

/-- C10: `PutValid` on a handle with a null pattern returns false and
changes nothing (no descriptor stored, no mutex released); the same for
a null handle; and whenever `PutValid` succeeds the handle was non-null
with a non-null pattern and an in-range slot index.  Conversely, for a
non-null pattern and a valid index it stores the descriptor unchanged
and releases exactly that slot. -/
theorem putValid_spec {n : ℕ} (q : FineLockPEQueue n) :
    (∀ pe : page_entry, pe.pattern = none → PutValid q (some pe) = (false, q)) ∧
    PutValid q none = (false, q) ∧
    (∀ pe : page_entry, (PutValid q (some pe)).1 = true →
      pe.pattern.isSome ∧ pe.offset / q.page_size < n) ∧
    (∀ (pe : page_entry) (idx : Fin n), (idx : ℕ) = pe.offset / q.page_size →
      pe.pattern.isSome →
      (PutValid q (some pe)).1 = true ∧
      (PutValid q (some pe)).2.pages idx = pe ∧
      (PutValid q (some pe)).2.pagelocks idx = false ∧
      (∀ j : Fin n, j ≠ idx →
        (PutValid q (some pe)).2.pages j = q.pages j ∧
        (PutValid q (some pe)).2.pagelocks j = q.pagelocks j)) := by
  refine ⟨?_, rfl, ?_, ?_⟩
  · intro pe hnone
    simp [PutValid, page_is_valid, hnone]
  · intro pe hres
    by_cases hv : page_is_valid pe
    · refine ⟨by simpa [page_is_valid] using hv, ?_⟩
      by_cases h0 : n = 0
      · simp [PutValid, hv, h0] at hres
      · by_cases hlt : pe.offset / q.page_size < n
        · exact hlt
        · simp [PutValid, hv, h0, hlt] at hres
    · simp [PutValid, hv] at hres
  · intro pe idx hidx hsome
    have hn : n ≠ 0 := by
      have := idx.isLt
      omega
    have hlt : pe.offset / q.page_size < n := by
      have := idx.isLt
      omega
    have hfin : (⟨pe.offset / q.page_size, hlt⟩ : Fin n) = idx := by
      apply Fin.ext
      exact hidx.symm
    have hv : page_is_valid pe := by
      simpa [page_is_valid] using hsome
    refine ⟨?_, ?_, ?_, ?_⟩
    · simp [PutValid, hv, hn, hlt]
    · simp [PutValid, hv, hn, hlt, hfin]
    · simp [PutValid, hv, hn, hlt, hfin]
    · intro j hj
      constructor <;> simp [PutValid, hv, hn, hlt, hfin, hj]

/-- Witness for `putValid_spec`: on a concrete two-slot queue, a
null-pattern handle is rejected with the queue unchanged, a null handle
is rejected, and a valid handle for slot 1 is stored as-is with slot
1's mutex released and slot 0 untouched. -/
theorem putValid_spec_witness :
    let pe0 : page_entry := ⟨0, 0, 0, none, 0xf001, 0, 0, 0, none⟩
    let q : FineLockPEQueue 2 := ⟨fun _ => pe0, fun _ => true, 4096⟩
    let peN : page_entry := ⟨4096, 77, 0, none, 1, 5, 9, 2, some 4⟩
    let peV : page_entry := ⟨4096, 77, 0, some 3, 1, 5, 9, 2, some 4⟩
    PutValid q (some peN) = (false, q) ∧
    PutValid q none = (false, q) ∧
    (PutValid q (some peV)).1 = true ∧
    (PutValid q (some peV)).2.pages 1 = peV ∧
    (PutValid q (some peV)).2.pagelocks 1 = false ∧
    (PutValid q (some peV)).2.pages 0 = pe0 ∧
    (PutValid q (some peV)).2.pagelocks 0 = true := by
  intro pe0 q peN peV
  obtain ⟨hnull, hnone, _, hsucc⟩ := putValid_spec q
  obtain ⟨h1, h2, h3, h4⟩ := hsucc peV (1 : Fin 2) (by norm_num) (by decide)
  obtain ⟨h40, h41⟩ := h4 0 (by decide)
  exact ⟨hnull peN rfl, hnone, h1, h2, h3, h40, h41⟩

/-! ## Claim C6 -/

/-- C6: the process exit status computed at the end of `main`
(main.cc:34-47) is 0 exactly when no fatal status was recorded and the
error count accumulated at teardown is zero, and 1 exactly when the
status flag is bad or the error count is non-zero. -/
theorem mainExitCode_spec (s : SatRun) :
    (mainExitCode s = 0 ↔
      s.badStatus = false ∧ GetTotalErrorCount s.workerErrors = 0) ∧
    (mainExitCode s = 1 ↔
      s.badStatus = true ∨ GetTotalErrorCount s.workerErrors ≠ 0) := by
  cases hb : s.badStatus <;>
    by_cases he : GetTotalErrorCount s.workerErrors = 0 <;>
      simp [mainExitCode, hb, he]

/-! ## Claim C8 -/

theorem protocol_transitions_aux :
    ∀ (ops : List WSOp) (s : WStatus) (inPause : Bool),
      protocolOK inPause ops = true →
      s = (if inPause then .PAUSE else .RUN) →
      ∀ k, k < ops.length →
        allowedTransition ((ops.take k).foldl applyOp s)
          ((ops.take (k + 1)).foldl applyOp s) := by
  intro ops
  induction ops with
  | nil =>
      intro s inPause _ _ k hk
      exact absurd hk (by simp)
  | cons op rest ih =>
      intro s inPause hok hs k hk
      cases k with
      | zero =>
          simp only [List.take_succ_cons, List.take_zero, List.foldl_cons,
            List.foldl_nil]
          cases op with
          | pauseWorkers =>
              have : inPause = false := by
                cases inPause
                · rfl
                · simp [protocolOK] at hok
              subst this
              simp only [if_neg Bool.false_ne_true] at hs
              left
              exact ⟨hs, rfl⟩
          | resumeWorkers =>
              have : inPause = true := by
                cases inPause
                · simp [protocolOK] at hok
                · rfl
              subst this
              simp only [if_pos rfl] at hs
              right
              left
              exact ⟨hs, rfl⟩
          | stopWorkers =>
              cases inPause
              · simp only [if_neg Bool.false_ne_true] at hs
                right
                right
                left
                exact ⟨hs, rfl⟩
              · simp only [if_pos rfl] at hs
                right
                right
                right
                exact ⟨hs, rfl⟩
      | succ k' =>
          simp only [List.take_succ_cons, List.foldl_cons]
          have hk' : k' < rest.length := by
            simpa using hk
          cases op with
          | pauseWorkers =>
              have hok' : protocolOK true rest = true := by
                cases inPause <;> simp_all [protocolOK]
              exact ih (applyOp s .pauseWorkers) true hok' rfl k' hk'
          | resumeWorkers =>
              have hok' : protocolOK false rest = true := by
                cases inPause <;> simp_all [protocolOK]
              exact ih (applyOp s .resumeWorkers) false hok' rfl k' hk'
          | stopWorkers =>
              have : rest = [] := by
                simpa [protocolOK, List.isEmpty_iff] using hok
              subst this
              exact absurd hk' (by simp)

/-- C8: under the documented call protocol, every status change made by
`PauseWorkers`, `ResumeWorkers` or `StopWorkers` is one of RUN→PAUSE,
PAUSE→RUN, RUN→STOP or PAUSE→STOP, and a STOP status is never left
(indeed it is never the source of any further operation). -/
theorem workerStatus_transitions (ops : List WSOp)
    (hok : protocolOK false ops = true) :
    ∀ k, k < ops.length →
      allowedTransition (statusAfter (ops.take k))
        (statusAfter (ops.take (k + 1))) ∧
      (statusAfter (ops.take k) = .STOP →
        statusAfter (ops.take (k + 1)) = .STOP) := by
  intro k hk
  have h := protocol_transitions_aux ops .RUN false hok (by simp) k hk
  refine ⟨h, fun hstop => ?_⟩
  rcases h with ⟨h1, _⟩ | ⟨h1, _⟩ | ⟨h1, _⟩ | ⟨h1, _⟩ <;>
    rw [statusAfter] at hstop <;> rw [h1] at hstop <;> cases hstop

/-! ## Lemmas about the cache-coherency probe -/

theorem signedByte_modEq (b : ℕ) : signedByte b ≡ (b : ℤ) [ZMOD 256] := by
  have hb : b % 256 < 256 := Nat.mod_lt _ (by norm_num)
  show signedByte b % 256 = (b : ℤ) % 256
  simp only [signedByte]
  split <;> omega

theorem signedByte_bound (b : ℕ) :
    -128 ≤ signedByte b ∧ signedByte b ≤ 128 := by
  have hb : b % 256 < 256 := Nat.mod_lt _ (by norm_num)
  simp only [signedByte]
  split <;> constructor <;> omega

theorem ccSumLoop_eq (t T : ℕ) :
    ∀ (lines : List ℕ) (cells : CCCells) (s : ℤ), lines.Nodup →
      (ccSumLoop t T lines cells s).1 =
        s + (lines.map
          (fun line => signedByte (cells line (ccOffset t T line)))).sum
  | [], _, s, _ => by simp [ccSumLoop]
  | line :: rest, cells, s, h => by
      obtain ⟨hnot, hnd⟩ := List.nodup_cons.mp h
      rw [ccSumLoop, ccSumLoop_eq t T rest _ _ hnd]
      have hsame : ∀ l ∈ rest,
          signedByte ((fun l o =>
              if l = line ∧ o = ccOffset t T line then 0 else cells l o) l
            (ccOffset t T l)) =
          signedByte (cells l (ccOffset t T l)) := by
        intro l hl
        have hne : l ≠ line := fun e => hnot (e ▸ hl)
        simp [hne]
      rw [List.map_congr_left hsame, List.map_cons, List.sum_cons]
      ring

theorem list_map_range_sum (f : ℕ → ℤ) (n : ℕ) :
    ((List.range n).map f).sum = ∑ l ∈ Finset.range n, f l := by
  induction n with
  | zero => simp
  | succ m ih => rw [List.range_succ, Finset.sum_range_succ]; simp [ih]

theorem list_sum_modEq (n : ℤ) :
    ∀ (l : List ℕ) (f g : ℕ → ℤ), (∀ x ∈ l, f x ≡ g x [ZMOD n]) →
      (l.map f).sum ≡ (l.map g).sum [ZMOD n]
  | [], _, _, _ => Int.ModEq.refl 0
  | x :: xs, f, g, h => by
      rw [List.map_cons, List.map_cons, List.sum_cons, List.sum_cons]
      exact (h x (by simp)).add
        (list_sum_modEq n xs f g (fun y hy => h y (by simp [hy])))

theorem ccIncLoop_sum_modEq (C t T : ℕ) (hC : 0 < C) :
    ∀ (K r : ℕ) (cells : CCCells),
      (∑ l ∈ Finset.range C,
          ((ccIncLoop C t T K r cells).2 l (ccOffset t T l) : ℤ)) ≡
        (∑ l ∈ Finset.range C, (cells l (ccOffset t T l) : ℤ)) + K [ZMOD 256]
  | 0, r, cells => by simp [ccIncLoop]
  | k + 1, r, cells => by
      rw [ccIncLoop]
      set r1 := SimpleRandom r with hr1
      set line := r1 % C with hline
      have hmem : line ∈ Finset.range C :=
        Finset.mem_range.mpr (Nat.mod_lt _ hC)
      set cells1 : CCCells := fun l o =>
        if l = line ∧ o = ccOffset t T line then (cells l o + 1) % 256
        else cells l o with hcells1
      have step : (∑ l ∈ Finset.range C, (cells1 l (ccOffset t T l) : ℤ)) ≡
          (∑ l ∈ Finset.range C, (cells l (ccOffset t T l) : ℤ)) + 1 [ZMOD 256] := by
        have hdecomp : ∀ l ∈ Finset.range C,
            (cells1 l (ccOffset t T l) : ℤ) =
              (cells l (ccOffset t T l) : ℤ) +
              (if l = line then
                ((((cells line (ccOffset t T line)) + 1) % 256 : ℕ) : ℤ) -
                  (cells line (ccOffset t T line) : ℤ)
              else 0) := by
          intro l _
          by_cases hl : l = line
          · subst hl
            simp [hcells1]
          · simp [hcells1, hl]
        rw [Finset.sum_congr rfl hdecomp, Finset.sum_add_distrib,
          Finset.sum_ite_eq' (Finset.range C) line, if_pos hmem]
        apply Int.ModEq.add_left
        show _ % _ = _ % _
        push_cast
        omega
      calc (∑ l ∈ Finset.range C,
              ((ccIncLoop C t T k r1 cells1).2 l (ccOffset t T l) : ℤ))
          ≡ (∑ l ∈ Finset.range C, (cells1 l (ccOffset t T l) : ℤ)) + k
            [ZMOD 256] := ccIncLoop_sum_modEq C t T hC k r1 cells1
        _ ≡ ((∑ l ∈ Finset.range C, (cells l (ccOffset t T l) : ℤ)) + 1) + k
            [ZMOD 256] := step.add_right _
        _ = (∑ l ∈ Finset.range C, (cells l (ccOffset t T l) : ℤ)) + (k + 1) := by
            ring
        _ ≡ _ [ZMOD 256] := by push_cast; exact Int.ModEq.refl _

theorem ccSumLoop_abs_bound (t T : ℕ) :
    ∀ (lines : List ℕ) (cells : CCCells) (s : ℤ),
      s - 128 * lines.length ≤ (ccSumLoop t T lines cells s).1 ∧
      (ccSumLoop t T lines cells s).1 ≤ s + 128 * lines.length
  | [], _, s => by simp [ccSumLoop]
  | line :: rest, cells, s => by
      rw [ccSumLoop]
      have hb := signedByte_bound (cells line (ccOffset t T line))
      have ih := ccSumLoop_abs_bound t T rest
        (fun l o => if l = line ∧ o = ccOffset t T line then 0 else cells l o)
        (s + signedByte (cells line (ccOffset t T line)))
      simp only [List.length_cons]
      constructor
      · have := ih.1
        push_cast at *
        omega
      · have := ih.2
        push_cast at *
        omega

/-- With no concurrent writers, the sum computed by the sum-and-zero
pass over cells that started at zero (at this thread's offsets) is
congruent to `K` mod 256. -/
theorem cc_alone_sum_modEq (C t T K r : ℕ) (hC : 0 < C) (cells : CCCells)
    (hzero : ∀ l, cells l (ccOffset t T l) = 0) :
    (ccIteration C t T K false r cells).sum ≡ (K : ℤ) [ZMOD 256] := by
  have hnodup : (List.range C).Nodup := List.nodup_range C
  show (ccSumLoop t T (List.range C)
      (ccIncLoop C t T K r cells).2 0).1 ≡ (K : ℤ) [ZMOD 256]
  rw [ccSumLoop_eq t T (List.range C) _ 0 hnodup, zero_add]
  have h1 : ((List.range C).map
      (fun line => signedByte ((ccIncLoop C t T K r cells).2 line
        (ccOffset t T line)))).sum ≡
      ((List.range C).map
        (fun line => ((ccIncLoop C t T K r cells).2 line
          (ccOffset t T line) : ℤ))).sum [ZMOD 256] :=
    list_sum_modEq 256 (List.range C) _ _ (fun x _ => signedByte_modEq _)
  have h2 := ccIncLoop_sum_modEq C t T hC K r cells
  rw [list_map_range_sum] at h1
  have h3 : (∑ l ∈ Finset.range C, (cells l (ccOffset t T l) : ℤ)) = 0 := by
    apply Finset.sum_eq_zero
    intro l _
    simp [hzero l]
  rw [h3, zero_add] at h2
  exact h1.trans h2

/-! ## Claim C5 -/

/-- C5 counterexample: with `K = cc_inc_count_ = 256` increments, one
cache line, a single thread and no interference, the computed sum is
not `K` (the counters are `char` cells and wrap mod 256: the sum is 0),
yet no diagnosis is emitted — refuting the claim's "the sum equals K"
at this concrete input while its diagnosis conclusion still holds. -/
theorem cc_sum_wraps_at_256 :
    (ccIteration 1 0 1 256 false 1 (fun _ _ => 0)).sum ≠ 256 ∧
    (ccIteration 1 0 1 256 false 1 (fun _ _ => 0)).diagnosis = false := by
  have hmod := cc_alone_sum_modEq 1 0 1 256 1 (by norm_num)
    (fun _ _ => 0) (fun _ => rfl)
  have hbound := ccSumLoop_abs_bound 0 1 (List.range 1)
    (ccIncLoop 1 0 1 256 1 (fun _ _ => 0)).2 0
  have hsum : (ccIteration 1 0 1 256 false 1 (fun _ _ => 0)).sum =
      (ccSumLoop 0 1 (List.range 1)
        (ccIncLoop 1 0 1 256 1 (fun _ _ => 0)).2 0).1 := rfl
  constructor
  · intro hcontra
    rw [hsum] at hcontra
    rw [List.length_range] at hbound
    omega
  · have : (ccIteration 1 0 1 256 false 1 (fun _ _ => 0)).sum.emod 256 =
        ((256 : ℕ) : ℤ).emod 256 := hmod
    simp only [ccIteration, decide_eq_false_iff_not, ne_eq, not_not]
    exact this

/-- C5 (amended): in each iteration of the cache-coherency loop,
(i) a diagnosis is emitted (and the error count incremented) exactly
when the low byte of the post-injection global sum differs from
`K mod 256`; (ii) for a thread running with no concurrent interference
and no error injection, starting from zeroed counters at its offsets,
the sum is congruent to `K` mod 256 (it equals `K` only while the byte
counters do not wrap) and no diagnosis is emitted. -/
theorem cc_iteration_spec (C t T K : ℕ) (inj : Bool) (r : ℕ)
    (cells : CCCells) (hC : 0 < C) :
    ((ccIteration C t T K inj r cells).diagnosis = true ↔
      (ccIteration C t T K inj r cells).sum.emod 256 ≠ (K : ℤ).emod 256) ∧
    (inj = false → (∀ l, cells l (ccOffset t T l) = 0) →
      (ccIteration C t T K inj r cells).sum ≡ (K : ℤ) [ZMOD 256] ∧
      (ccIteration C t T K inj r cells).diagnosis = false) := by
  constructor
  · simp [ccIteration]
  · rintro rfl hzero
    have hmod := cc_alone_sum_modEq C t T K r hC cells hzero
    refine ⟨hmod, ?_⟩
    have : (ccIteration C t T K false r cells).sum.emod 256 =
        ((K : ℕ) : ℤ).emod 256 := hmod
    simp only [ccIteration, decide_eq_false_iff_not, ne_eq, not_not]
    exact this

/-- Witness for `cc_iteration_spec` at `C = 2`, `K = 3`, a single
thread, seed 9 and zeroed counters. -/
theorem cc_iteration_spec_witness :
    (ccIteration 2 0 1 3 false 9 (fun _ _ => 0)).sum ≡ (3 : ℤ) [ZMOD 256] ∧
    (ccIteration 2 0 1 3 false 9 (fun _ _ => 0)).diagnosis = false :=
  (cc_iteration_spec 2 0 1 3 false 9 (fun _ _ => 0) (by norm_num)).2 rfl
    (fun _ => rfl)

/-! ## Claim C9 -/

/-- Rejection half: `ComputeFrequency` reports no frequency exactly
when some MSR of `{TSC, APERF, MPERF}` decreased from the previous to
the current sample or the TSC advanced by fewer than `10^6` cycles. -/
theorem computeFrequency_none_iff (current previous : CpuDataType)
    (round : ℕ) :
    ComputeFrequency current previous round = none ↔
      (current.tsc < previous.tsc ∨ current.aperf < previous.aperf ∨
       current.mperf < previous.mperf ∨
       current.tsc - previous.tsc < 1000 * 1000) := by
  rw [ComputeFrequency, Option.map_eq_none', ComputeDelta]
  split_ifs with h1 h2 h3 h4 <;> simp <;> omega

/-- Value half: when the interval is accepted (no MSR went
backwards, TSC advanced enough) and the interval is physically
meaningful (`ΔMPERF > 0`, `Δt > 0`), `ComputeFrequency` returns a
frequency that is a multiple of the configured rounding grain within
half a grain of the spec's formula `ΔTSC/10⁶ × ΔAPERF/ΔMPERF × 1/Δt` —
i.e. the formula value rounded to the nearest multiple of the grain. -/
theorem computeFrequency_value (current previous : CpuDataType)
    (round : ℕ)
    (hts : previous.tsc ≤ current.tsc)
    (ha : previous.aperf ≤ current.aperf)
    (hm : previous.mperf < current.mperf)
    (htsc : 1000 * 1000 ≤ current.tsc - previous.tsc)
    (hdt : 0 < ((current.tv_sec - previous.tv_sec : ℤ) : ℚ) +
      ((current.tv_usec - previous.tv_usec : ℤ) : ℚ) / 1000000) :
    ∃ f : ℤ, ComputeFrequency current previous round = some f ∧
      (cpuFreqRoundInit round).1 ∣ f ∧
      |(f : ℚ) - specFrequencyMHz current previous| * 2 ≤
        ((cpuFreqRoundInit round).1 : ℚ) := by
  set g : ℤ := (cpuFreqRoundInit round).1 with hg
  set rv : ℚ := (cpuFreqRoundInit round).2 with hrv
  have hgpos : 0 < g := by
    rw [hg, cpuFreqRoundInit]
    split
    · norm_num
    · show (0 : ℤ) < (round : ℤ)
      exact_mod_cast Nat.pos_of_ne_zero (by assumption)
  have hrv2 : rv = (g : ℚ) / 2 := by
    rw [hg, hrv, cpuFreqRoundInit]
    split <;> norm_num
  set φ : ℚ := specFrequencyMHz current previous with hφ
  have hφ0 : 0 ≤ φ := by
    rw [hφ, specFrequencyMHz]
    have h1 : (0 : ℚ) ≤ ((current.tsc - previous.tsc : ℕ) : ℚ) := by positivity
    have h2 : (0 : ℚ) ≤ ((current.aperf - previous.aperf : ℕ) : ℚ) := by
      positivity
    have h3 : (0 : ℚ) ≤ ((current.mperf - previous.mperf : ℕ) : ℚ) := by
      positivity
    positivity
  have hdelta : ComputeDelta current previous =
      some ⟨current.tsc - previous.tsc, current.aperf - previous.aperf,
        current.mperf - previous.mperf, current.tv_sec - previous.tv_sec,
        current.tv_usec - previous.tv_usec⟩ := by
    rw [ComputeDelta, if_neg (by omega), if_neg (by omega), if_neg (by omega),
      if_neg (by omega)]
  set c : ℤ := truncToInt (φ + rv) with hc
  have hcval : c = ⌊φ + rv⌋ := by
    rw [hc, truncToInt, if_pos]
    have : (0 : ℚ) ≤ rv := by
      rw [hrv2]
      positivity
    linarith
  have hc0 : 0 ≤ c := by
    rw [hcval]
    apply Int.floor_nonneg.mpr
    have : (0 : ℚ) ≤ rv := by
      rw [hrv2]
      positivity
    linarith
  have hmodeq : cMod c g = c % g := by
    rw [cMod, Int.tdiv_eq_ediv hc0 (le_of_lt hgpos), Int.emod_def]
  refine ⟨c - cMod c g, ?_, ?_, ?_⟩
  · rw [ComputeFrequency, hdelta]
    rfl
  · rw [hmodeq]
    exact ⟨c / g, by have h := Int.ediv_add_emod c g; linarith⟩
  · rw [hmodeq]
    have hfloor_le : (c : ℚ) ≤ φ + rv := hcval ▸ Int.floor_le (φ + rv)
    have hfloor_gt : φ + rv - 1 < (c : ℚ) := by
      rw [hcval]
      have := Int.lt_floor_add_one (φ + rv)
      linarith
    have hmod0 : (0 : ℤ) ≤ c % g := Int.emod_nonneg c (by omega)
    have hmodlt : c % g < g := Int.emod_lt_of_pos c hgpos
    have hcast1 : ((c - c % g : ℤ) : ℚ) = (c : ℚ) - ((c % g : ℤ) : ℚ) := by
      push_cast
      ring
    have hmq0 : (0 : ℚ) ≤ ((c % g : ℤ) : ℚ) := by exact_mod_cast hmod0
    have hmqlt : ((c % g : ℤ) : ℚ) ≤ (g : ℚ) - 1 := by
      have : (c % g : ℤ) ≤ g - 1 := by omega
      exact_mod_cast this
    rw [hrv2] at hfloor_le hfloor_gt
    have habs : |((c - c % g : ℤ) : ℚ) - φ| ≤ (g : ℚ) / 2 := by
      rw [abs_le]
      constructor <;> rw [hcast1] <;> linarith
    linarith [abs_nonneg (((c - c % g : ℤ) : ℚ) - φ)]

/-- C9: `ComputeFrequency` rejects the interval (reports no frequency)
exactly when some MSR of `{TSC, APERF, MPERF}` decreased or the TSC
delta is below `10^6`; otherwise (for a physically meaningful interval,
`ΔMPERF > 0` and `Δt > 0`) it reports a frequency that is the spec
formula `ΔTSC/10⁶ × ΔAPERF/ΔMPERF ÷ Δt` rounded to the nearest
multiple of the configured rounding grain (a multiple of the grain
within half a grain of the formula value). -/
theorem computeFrequency_spec (current previous : CpuDataType)
    (round : ℕ) :
    (ComputeFrequency current previous round = none ↔
      (current.tsc < previous.tsc ∨ current.aperf < previous.aperf ∨
       current.mperf < previous.mperf ∨
       current.tsc - previous.tsc < 1000 * 1000)) ∧
    (previous.tsc ≤ current.tsc → previous.aperf ≤ current.aperf →
     previous.mperf < current.mperf →
     1000 * 1000 ≤ current.tsc - previous.tsc →
     0 < ((current.tv_sec - previous.tv_sec : ℤ) : ℚ) +
       ((current.tv_usec - previous.tv_usec : ℤ) : ℚ) / 1000000 →
     ∃ f : ℤ, ComputeFrequency current previous round = some f ∧
       (cpuFreqRoundInit round).1 ∣ f ∧
       |(f : ℚ) - specFrequencyMHz current previous| * 2 ≤
         ((cpuFreqRoundInit round).1 : ℚ)) :=
  ⟨computeFrequency_none_iff current previous round,
   fun hts ha hm htsc hdt =>
     computeFrequency_value current previous round hts ha hm htsc hdt⟩

/-- Witness for `computeFrequency_spec`: a backward APERF sample is
rejected, and the accepted interval `ΔTSC = 2·10⁶`, `ΔAPERF = 3`,
`ΔMPERF = 1`, `Δt = 1 s` with grain 10 (formula value 6 MHz) yields a
grain multiple within half a grain; concretely the result is
`some 10`. -/
theorem computeFrequency_spec_witness :
    ComputeFrequency ⟨2000000, 3, 1, 1, 0⟩ ⟨0, 4, 0, 0, 0⟩ 10 = none ∧
    (∃ f : ℤ,
      ComputeFrequency ⟨2000000, 3, 1, 1, 0⟩ ⟨0, 0, 0, 0, 0⟩ 10 = some f ∧
      (cpuFreqRoundInit 10).1 ∣ f ∧
      |(f : ℚ) - specFrequencyMHz ⟨2000000, 3, 1, 1, 0⟩ ⟨0, 0, 0, 0, 0⟩| * 2 ≤
        ((cpuFreqRoundInit 10).1 : ℚ)) ∧
    ComputeFrequency ⟨2000000, 3, 1, 1, 0⟩ ⟨0, 0, 0, 0, 0⟩ 10 = some 10 := by
  refine ⟨(computeFrequency_spec ⟨2000000, 3, 1, 1, 0⟩ ⟨0, 4, 0, 0, 0⟩ 10).1.mpr
      (by norm_num),
    (computeFrequency_spec ⟨2000000, 3, 1, 1, 0⟩ ⟨0, 0, 0, 0, 0⟩ 10).2
      (by norm_num) (by norm_num) (by norm_num) (by norm_num) (by norm_num),
    ?_⟩
  simp only [ComputeFrequency, ComputeDelta, cpuFreqRoundInit, truncToInt, cMod]
  norm_num
  decide

/-! ## Claim C1 -/

theorem blockScan_from_kGood (pat : Pattern) (poff : ℕ) :
    ∀ (ws : List ℕ) (i bs be : ℕ),
      (blockScan pat poff ws i .kGood bs be).1 = .kGood ∨
      (blockScan pat poff ws i .kGood bs be).1 = .kNoMatch
  | [], _, _, _ => Or.inl rfl
  | w :: ws, i, bs, be => by
      by_cases h : w = expectedWord pat poff i
      · simpa only [blockScan, if_pos h] using
          blockScan_from_kGood pat poff ws (i + 1) bs be
      · simp [blockScan, h]

theorem blockAnalysisLoop_no_report (pat : Pattern) (poff : ℕ)
    (firstIdx firstExpected patIdx : ℕ) :
    ∀ (ps : List ℕ) (block : List ℕ),
      blockAnalysisLoop pat poff firstIdx firstExpected patIdx ps block =
        ([], block)
  | [], _ => rfl
  | p :: ps, block => by
      by_cases hp : p = patIdx
      · simpa only [blockAnalysisLoop, if_pos hp] using
          blockAnalysisLoop_no_report pat poff firstIdx firstExpected patIdx ps block
      · have hst := blockScan_from_kGood pat poff block 0 0 0
        have hcond : ¬ ((blockScan pat poff block 0 .kGood 0 0).1 = .kBad ∨
            (blockScan pat poff block 0 .kGood 0 0).1 = .kGoodAgain) := by
          rcases hst with h | h <;> rw [h] <;> simp
        simpa only [blockAnalysisLoop, if_neg hp, if_neg hcond] using
          blockAnalysisLoop_no_report pat poff firstIdx firstExpected patIdx ps block

/-- C1: with tag mode off, the whole-block re-pattern analysis of
`CheckRegion` never produces a Block Error report, for any region
contents, any assigned pattern and any catalog — in particular not when
the block consists of a single contiguous run of alternate-pattern
words.  The automaton at worker.cc:740-785 compares against `possible`
computed from the *assigned* pattern (worker.cc:751-752), so from
`kGood` the only reachable states are `kGood` and `kNoMatch` and the
reporting condition `state ∈ {kBad, kGoodAgain}` (worker.cc:787) is
unsatisfiable. -/
theorem checkRegion_never_reports_block_error (catalogSize patIdx : ℕ)
    (pat : Pattern) (poff : ℕ) (block : List ℕ) :
    (CheckRegion catalogSize patIdx pat poff block).blockReports = [] := by
  simp only [CheckRegion]
  by_cases h : (scanRecorded pat poff block 0 []).2 <;>
    simp [h, blockAnalysisLoop_no_report]

/-! ## Claim C4 -/

theorem compl32_compl32 (w : ℕ) (h : w < w32) : compl32 (compl32 w) = w := by
  simp only [compl32, w32] at *
  omega

theorem compl32_lt (w : ℕ) : compl32 w < w32 := by
  simp only [compl32, w32]
  omega

theorem invertPageDown_eq_map (page : List ℕ) :
    InvertPageDown page = page.map compl32 := by
  simp [InvertPageDown, List.map_reverse]

theorem invertFour_id (page : List ℕ) (h : ∀ w ∈ page, w < w32) :
    invertFour page = page := by
  simp only [invertFour, InvertPageUp, invertPageDown_eq_map, List.map_map]
  have : ∀ w ∈ page, (compl32 ∘ compl32 ∘ compl32 ∘ compl32) w = id w := by
    intro w hw
    have h1 : compl32 (compl32 w) = w := compl32_compl32 w (h w hw)
    simp only [Function.comp_apply, id_eq]
    rw [compl32_compl32 _ (compl32_lt _), h1]
  rw [List.map_congr_left this, List.map_id]

theorem scanRecorded_clean (pat : Pattern) (poff : ℕ) :
    ∀ (ws : List ℕ) (i : ℕ) (rec : List (ℕ × ℕ × ℕ)),
      (∀ k, k < ws.length → ws.getD k 0 = expectedWord pat poff (i + k)) →
      scanRecorded pat poff ws i rec = (rec, false)
  | [], _, _, _ => rfl
  | w :: ws, i, rec, h => by
      have h0 : w = expectedWord pat poff i := by
        simpa using h 0 (by simp)
      rw [scanRecorded, if_pos h0]
      apply scanRecorded_clean pat poff ws (i + 1) rec
      intro k hk
      have := h (k + 1) (by simpa using Nat.succ_lt_succ hk)
      simpa [Nat.add_assoc, Nat.add_comm 1 k] using this

/-- A region whose every word already equals the expected pattern word
passes `CheckRegion` with no errors, no overflow, no block reports and
unchanged memory. -/
theorem checkRegion_clean (catalogSize patIdx : ℕ) (pat : Pattern)
    (poff : ℕ) (block : List ℕ)
    (h : ∀ k, k < block.length → block.getD k 0 = expectedWord pat poff k) :
    CheckRegion catalogSize patIdx pat poff block = ⟨0, 0, [], false, block⟩ := by
  have hscan := scanRecorded_clean pat poff block 0 [] (by simpa using h)
  simp [CheckRegion, hscan, repairAll]

theorem getD_map_range (f : ℕ → ℕ) (m k : ℕ) (h : k < m) :
    ((List.range m).map f).getD k 0 = f k := by
  have hl : k < ((List.range m).map f).length := by simpa using h
  rw [List.getD_eq_getElem _ _ hl]
  simp

theorem block64_map_range (f : ℕ → ℕ) (nblocks b : ℕ) (hb : b < nblocks) :
    block64 b ((List.range (512 * nblocks)).map f) =
      (List.range 512).map (fun k => f (512 * b + k)) := by
  have hlen : 512 * b + 512 ≤ 512 * nblocks := by omega
  apply List.ext_getElem
  · simp [block64]
    omega
  · intro k hk1 hk2
    simp only [block64] at hk1 ⊢
    rw [List.getElem_take, List.getElem_drop]
    simp only [List.getElem_map, List.getElem_range]

/-- The words produced by `FillPage64` are genuine 64-bit values. -/
theorem expectedWord_lt (pat : Pattern) (poff i : ℕ) :
    expectedWord pat poff i < w64 := by
  simp only [expectedWord, word64OfHalves, w32, w64]
  have h1 := Nat.mod_lt (pat (2 * i + poff)) (show 0 < 2 ^ 32 by norm_num)
  have h2 := Nat.mod_lt (pat (2 * i + poff + 1)) (show 0 < 2 ^ 32 by norm_num)
  omega

theorem word64OfHalves_lo_hi (w : ℕ) (h : w < w64) :
    word64OfHalves (lo32 w) (hi32 w) = w := by
  simp only [word64OfHalves, lo32, hi32, w32, w64] at *
  omega

theorem halfwords_lt (l : List ℕ) : ∀ w ∈ halfwords l, w < w32 := by
  intro w hw
  simp only [halfwords, List.mem_flatMap] at hw
  obtain ⟨x, _, hx⟩ := hw
  simp only [List.mem_cons, List.mem_singleton] at hx
  rcases hx with rfl | rfl | h
  · exact Nat.mod_lt _ (by simp [w32])
  · exact Nat.mod_lt _ (by simp [w32])
  · cases h

theorem words64_halfwords (l : List ℕ) (h : ∀ w ∈ l, w < w64) :
    words64 (halfwords l) = l := by
  induction l with
  | nil => rfl
  | cons w ws ih =>
      rw [halfwords_cons, words64, word64OfHalves_lo_hi w (h w (by simp))]
      rw [ih (fun x hx => h x (by simp [hx]))]

/-- C4: (i) the four invert traversals up, down, down, up restore every
32-bit word of any page; (ii) starting from a page filled from the
catalog pattern (whose index stream repeats with period dividing 1024
32-bit words, because a pattern's index mask is its power-of-two size
minus one, worker.cc:474-475, and a 4 KiB CRC block spans 1024 pattern
indices), the fill → invert⁴ → check sequence leaves the page equal to
its filled contents and `CheckRegion` on every 4 KiB block reports zero
errors, zero overflow errors, no block reports and unchanged memory —
zero diagnoses. -/
theorem invert_roundtrip_and_check (page : List ℕ)
    (hpage : ∀ w ∈ page, w < w32) (pat : Pattern)
    (nblocks catalogSize patIdx : ℕ)
    (hper : ∀ i, pat i % w32 = pat (i % 1024) % w32) :
    invertFour page = page ∧
    words64 (invertFour (halfwords (FillPage64 pat (512 * nblocks)))) =
      FillPage64 pat (512 * nblocks) ∧
    (∀ b, b < nblocks →
      (CheckRegion catalogSize patIdx pat 0
          (block64 b (FillPage64 pat (512 * nblocks)))).diagnoses = 0 ∧
      (CheckRegion catalogSize patIdx pat 0
          (block64 b (FillPage64 pat (512 * nblocks)))).finalBlock =
        block64 b (FillPage64 pat (512 * nblocks))) := by
  have hfill : words64 (invertFour (halfwords (FillPage64 pat (512 * nblocks)))) =
      FillPage64 pat (512 * nblocks) := by
    rw [invertFour_id _ (halfwords_lt _), words64_halfwords]
    intro w hw
    simp only [FillPage64, List.mem_map] at hw
    obtain ⟨i, _, rfl⟩ := hw
    exact expectedWord_lt pat 0 i
  refine ⟨invertFour_id page hpage, hfill, fun b hb => ?_⟩
  have hblk : block64 b (FillPage64 pat (512 * nblocks)) =
      (List.range 512).map (fun k => expectedWord pat 0 (512 * b + k)) := by
    simpa only [FillPage64] using
      block64_map_range (expectedWord pat 0) nblocks b hb
  have hpointwise : ∀ k, k < 512 →
      expectedWord pat 0 (512 * b + k) = expectedWord pat 0 k := by
    intro k hk
    have e1 : pat (2 * (512 * b + k)) % w32 = pat (2 * k) % w32 := by
      have h1 := hper (2 * (512 * b + k))
      have h2 := hper (2 * k)
      have hmod : (2 * (512 * b + k)) % 1024 = (2 * k) % 1024 := by omega
      rw [h1, h2, hmod]
    have e2 : pat (2 * (512 * b + k) + 1) % w32 = pat (2 * k + 1) % w32 := by
      have h1 := hper (2 * (512 * b + k) + 1)
      have h2 := hper (2 * k + 1)
      have hmod : (2 * (512 * b + k) + 1) % 1024 = (2 * k + 1) % 1024 := by omega
      rw [h1, h2, hmod]
    simp only [expectedWord, word64OfHalves, Nat.add_zero]
    rw [e1, e2]
  have hclean : ∀ k, k < (block64 b (FillPage64 pat (512 * nblocks))).length →
      (block64 b (FillPage64 pat (512 * nblocks))).getD k 0 =
        expectedWord pat 0 k := by
    intro k hk
    rw [hblk] at hk ⊢
    have hk512 : k < 512 := by simpa using hk
    rw [getD_map_range _ _ _ hk512, hpointwise k hk512]
  have := checkRegion_clean catalogSize patIdx pat 0
    (block64 b (FillPage64 pat (512 * nblocks))) hclean
  rw [this]
  exact ⟨rfl, rfl⟩

/-- Witness for `invert_roundtrip_and_check`: a concrete three-word
page and the constant-zero pattern on a one-block page. -/
theorem invert_roundtrip_and_check_witness :
    invertFour [0, 5, 4294967295] = [0, 5, 4294967295] ∧
    words64 (invertFour (halfwords (FillPage64 (fun _ => 0) (512 * 1)))) =
      FillPage64 (fun _ => 0) (512 * 1) ∧
    (∀ b, b < 1 →
      (CheckRegion 3 0 (fun _ => 0) 0
          (block64 b (FillPage64 (fun _ => 0) (512 * 1)))).diagnoses = 0 ∧
      (CheckRegion 3 0 (fun _ => 0) 0
          (block64 b (FillPage64 (fun _ => 0) (512 * 1)))).finalBlock =
        block64 b (FillPage64 (fun _ => 0) (512 * 1))) := by
  exact invert_roundtrip_and_check [0, 5, 4294967295] (by decide)
    (fun _ => 0) 1 3 0 (fun i => rfl)

/-! ## Lemmas for the queue walk: the generator construction -/

theorem removeFactors_pos (i : ℕ) : ∀ r, 0 < r → 0 < removeFactors i r := by
  intro r
  induction r using Nat.strong_induction_on with
  | _ r ih =>
      intro hr
      rw [removeFactors]
      split_ifs with h
      · exact ih (r / i) (Nat.div_lt_self h.2.2 h.1)
          (Nat.div_pos (Nat.le_of_dvd hr h.2.1) (by omega))
      · exact hr

theorem removeFactors_dvd (i : ℕ) : ∀ r, removeFactors i r ∣ r := by
  intro r
  induction r using Nat.strong_induction_on with
  | _ r ih =>
      rw [removeFactors]
      split_ifs with h
      · exact (ih (r / i) (Nat.div_lt_self h.2.2 h.1)).trans
          (Nat.div_dvd_of_dvd h.2.1)
      · exact dvd_rfl

theorem removeFactors_not_dvd (i : ℕ) (hi : 2 ≤ i) :
    ∀ r, 0 < r → ¬ i ∣ removeFactors i r := by
  intro r
  induction r using Nat.strong_induction_on with
  | _ r ih =>
      intro hr
      rw [removeFactors]
      split_ifs with h
      · exact ih (r / i) (Nat.div_lt_self h.2.2 h.1)
          (Nat.div_pos (Nat.le_of_dvd hr h.2.1) (by omega))
      · intro hdvd
        exact h ⟨hi, hdvd, hr⟩

theorem dvd_removeFactors_iff (i p : ℕ) (hp : p.Prime) (hpi : ¬ p ∣ i) :
    ∀ r, p ∣ removeFactors i r ↔ p ∣ r := by
  intro r
  induction r using Nat.strong_induction_on with
  | _ r ih =>
      rw [removeFactors]
      split_ifs with h
      · rw [ih (r / i) (Nat.div_lt_self h.2.2 h.1)]
        constructor
        · intro hp2
          exact hp2.trans (Nat.div_dvd_of_dvd h.2.1)
        · intro hp2
          have hp3 : p ∣ r / i * i := by
            rwa [Nat.div_mul_cancel h.2.1]
          rcases (Nat.Prime.dvd_mul hp).mp hp3 with hc | hc
          · exact hc
          · exact absurd hc hpi
      · exact Iff.rfl

theorem no_small_factors_eq_one (m i r : ℕ) (hr : 0 < r) (hrm : r ≤ m)
    (hmin : ∀ p, p.Prime → p ∣ r → i ≤ p) (him : m < i) : r = 1 := by
  by_contra h1
  rcases Nat.exists_prime_and_dvd h1 with ⟨q, hq, hqr⟩
  have h2 : i ≤ q := hmin q hq hqr
  have h3 : q ≤ r := Nat.le_of_dvd hr hqr
  omega

theorem getALoop_eq_aux (m : ℕ) :
    ∀ (k i r a : ℕ), m + 1 ≤ i + k → 2 ≤ i → 0 < r → r ≤ m →
      (∀ p, p.Prime → p ∣ r → i ≤ p) →
      getALoop m i r a = a * ∏ p ∈ r.primeFactors, p := by
  intro k
  induction k with
  | zero =>
      intro i r a hk hi hr hrm hmin
      have him : m < i := by omega
      rw [getALoop, if_neg (by omega),
        no_small_factors_eq_one m i r hr hrm hmin him]
      simp
  | succ k ih =>
      intro i r a hk hi hr hrm hmin
      by_cases him : i ≤ m
      · rw [getALoop, if_pos him]
        by_cases hdvd : i ∣ r
        · rw [if_pos hdvd]
          have hiprime : i.Prime := by
            rcases Nat.exists_prime_and_dvd (show i ≠ 1 by omega) with
              ⟨q, hq, hqi⟩
            have h2 : i ≤ q := hmin q hq (hqi.trans hdvd)
            have h3 : q ≤ i := Nat.le_of_dvd (by omega) hqi
            have h4 : q = i := by omega
            exact h4 ▸ hq
          have hrfpos : 0 < removeFactors i r := removeFactors_pos i r hr
          have hrfdvd : removeFactors i r ∣ r := removeFactors_dvd i r
          have hrfle : removeFactors i r ≤ m :=
            le_trans (Nat.le_of_dvd hr hrfdvd) hrm
          have hrfmin : ∀ p, p.Prime → p ∣ removeFactors i r → i + 1 ≤ p := by
            intro p hp hpdvd
            have h5 : i ≤ p := hmin p hp (hpdvd.trans hrfdvd)
            rcases Nat.lt_or_ge i p with h6 | h6
            · omega
            · have h7 : p = i := by omega
              subst h7
              exact absurd hpdvd (removeFactors_not_dvd p hi r hr)
          rw [ih (i + 1) (removeFactors i r) (a * i) (by omega) (by omega)
            hrfpos hrfle hrfmin]
          have hfactors : (removeFactors i r).primeFactors =
              r.primeFactors.erase i := by
            ext p
            rw [Finset.mem_erase, Nat.mem_primeFactors, Nat.mem_primeFactors]
            constructor
            · intro ⟨hp, hpd, _⟩
              have hpne : p ≠ i := by
                intro he
                exact removeFactors_not_dvd i hi r hr (he ▸ hpd)
              have hpi : ¬ p ∣ i :=
                fun hcon => hpne ((Nat.prime_dvd_prime_iff_eq hp hiprime).mp hcon)
              exact ⟨hpne, hp, (dvd_removeFactors_iff i p hp hpi r).mp hpd,
                by omega⟩
            · intro ⟨hpne, hp, hpd, _⟩
              have hpi : ¬ p ∣ i :=
                fun hcon => hpne ((Nat.prime_dvd_prime_iff_eq hp hiprime).mp hcon)
              exact ⟨hp, (dvd_removeFactors_iff i p hp hpi r).mpr hpd, by omega⟩
          have himem : i ∈ r.primeFactors :=
            Nat.mem_primeFactors.mpr ⟨hiprime, hdvd, by omega⟩
          rw [hfactors, ← Finset.mul_prod_erase r.primeFactors _ himem]
          ring
        · rw [if_neg hdvd]
          apply ih (i + 1) r a (by omega) (by omega) hr hrm
          intro p hp hpd
          have h5 : i ≤ p := hmin p hp hpd
          rcases Nat.lt_or_ge i p with h6 | h6
          · omega
          · have h7 : p = i := by omega
            subst h7
            exact absurd hpd hdvd
      · rw [getALoop, if_neg him,
          no_small_factors_eq_one m i r hr hrm hmin (by omega)]
        simp

/-- The product computed by `getA`'s trial-division loop: the initial
value (2 when `4 ∣ m`, else 1) times the product of the distinct prime
factors of `m`. -/
theorem getA_closed_form (m : ℕ) (hm : 1 ≤ m) :
    getA m = ((if m % 4 = 0 then 2 else 1) *
      ∏ p ∈ m.primeFactors, p + 1) % m := by
  rw [getA, getALoop_eq_aux m m 2 m _ (by omega) (by omega) (by omega)
    (le_refl m) (fun p hp _ => hp.two_le)]

/-- The Hull–Dobell-style divisibility properties of the constructor's
multiplier: `a = getA m % m` satisfies `a ≥ 1`, `p ∣ a - 1` for every
prime factor `p` of `m`, and `4 ∣ a - 1` whenever `4 ∣ m`. -/
theorem getA_dvd_conditions (m : ℕ) (hm : 2 ≤ m) :
    1 ≤ getA m % m ∧
    (∀ p, p.Prime → p ∣ m → p ∣ (getA m % m - 1)) ∧
    (4 ∣ m → 4 ∣ (getA m % m - 1)) := by
  have hA := getA_closed_form m (by omega)
  set A : ℕ := (if m % 4 = 0 then 2 else 1) * ∏ p ∈ m.primeFactors, p with hAdef
  have hgetA : getA m % m = (A + 1) % m := by
    rw [hA]
    exact Nat.mod_mod_of_dvd _ dvd_rfl
  have key : ∀ d, 2 ≤ d → d ∣ m → d ∣ A → (getA m % m) % d = 1 := by
    intro d hd hdm hdA
    rw [hgetA, Nat.mod_mod_of_dvd _ hdm]
    obtain ⟨t, ht⟩ := hdA
    rw [ht, Nat.mul_add_mod]
    exact Nat.mod_eq_of_lt (by omega)
  obtain ⟨p0, hp0, hp0m⟩ := Nat.exists_prime_and_dvd (show m ≠ 1 by omega)
  have hdvdA : ∀ p, p.Prime → p ∣ m → p ∣ A := by
    intro p hp hpm
    have hmem : p ∈ m.primeFactors :=
      Nat.mem_primeFactors.mpr ⟨hp, hpm, by omega⟩
    exact Dvd.dvd.mul_left (Finset.dvd_prod_of_mem _ hmem) _
  have h1 : 1 ≤ getA m % m := by
    by_contra h0
    have he : getA m % m = 0 := by omega
    have hcon := key p0 hp0.two_le hp0m (hdvdA p0 hp0 hp0m)
    rw [he, Nat.zero_mod] at hcon
    omega
  refine ⟨h1, ?_, ?_⟩
  · intro p hp hpm
    have hk := key p hp.two_le hpm (hdvdA p hp hpm)
    have hdm := Nat.div_add_mod (getA m % m) p
    exact ⟨getA m % m / p, by omega⟩
  · intro h4
    have h2m : 2 ∣ m := dvd_trans (by norm_num) h4
    have hm4 : m % 4 = 0 := by
      obtain ⟨t, rfl⟩ := h4
      simp [Nat.mul_mod_right]
    have h2mem : 2 ∈ m.primeFactors :=
      Nat.mem_primeFactors.mpr ⟨Nat.prime_two, h2m, by omega⟩
    obtain ⟨t, ht⟩ := Finset.dvd_prod_of_mem (fun p => p) h2mem
    have h4A : 4 ∣ A := by
      rw [hAdef, if_pos hm4, ht]
      exact ⟨t, by ring⟩
    have hk := key 4 (by omega) h4 h4A
    have hdm := Nat.div_add_mod (getA m % m) 4
    exact ⟨getA m % m / 4, by omega⟩

theorem add_one_mod_self (m : ℕ) (hm : 2 ≤ m) : (m + 1) % m = 1 := by
  rw [Nat.add_mod_left]
  exact Nat.mod_eq_of_lt (by omega)

/-- For prime `m` the trial division collects `m` itself and the
constructor's multiplier degenerates to 1 (so the constructor moves
on). -/
theorem getA_prime_trivial (m : ℕ) (hm : m.Prime) : getA m % m = 1 := by
  have hm2 := hm.two_le
  have hm4 : m % 4 ≠ 0 := by
    rcases hm.eq_two_or_odd' with rfl | hodd
    · omega
    · have := Nat.odd_iff.mp hodd
      omega
  rw [getA_closed_form m (by omega), if_neg hm4, hm.primeFactors,
    Finset.prod_singleton, one_mul, add_one_mod_self m hm2]
  exact Nat.mod_eq_of_lt (by omega)

/-- For `m = 2q` with `q` an odd prime the multiplier also degenerates
to 1. -/
theorem getA_two_prime_trivial (q : ℕ) (hq : q.Prime) (hodd : Odd q) :
    getA (2 * q) % (2 * q) = 1 := by
  have hq2 := hq.two_le
  have hqodd := Nat.odd_iff.mp hodd
  have hm4 : 2 * q % 4 ≠ 0 := by omega
  have hq0 : q ≠ 2 := by omega
  have hfac : (2 * q).primeFactors = {2} ∪ {q} := by
    rw [Nat.primeFactors_mul (by omega) (by omega), Nat.Prime.primeFactors hq,
      Nat.prime_two.primeFactors]
  rw [getA_closed_form (2 * q) (by omega), if_neg hm4, hfac,
    ← Finset.insert_eq,
    Finset.prod_insert (by simp [Ne.symm hq0] : (2 : ℕ) ∉ ({q} : Finset ℕ)),
    Finset.prod_singleton, one_mul, add_one_mod_self (2 * q) (by omega)]
  exact Nat.mod_eq_of_lt (by omega)

/-- Powers of two from 8 up give a nontrivial multiplier (value 5), so
the constructor's search always terminates. -/
theorem getA_pow2 (k : ℕ) (hk : 3 ≤ k) : getA (2 ^ k) % (2 ^ k) = 5 := by
  have h8 : (8 : ℕ) ≤ 2 ^ k := by
    calc (8 : ℕ) = 2 ^ 3 := by norm_num
    _ ≤ 2 ^ k := Nat.pow_le_pow_right (by omega) hk
  have hm4 : 2 ^ k % 4 = 0 := by
    have : (4 : ℕ) ∣ 2 ^ k := by
      calc (4 : ℕ) = 2 ^ 2 := by norm_num
      _ ∣ 2 ^ k := pow_dvd_pow 2 (by omega)
    omega
  have hfac : (2 ^ k).primeFactors = {2} := by
    rw [Nat.primeFactors_pow 2 (by omega), Nat.prime_two.primeFactors]
  have h5 : (2 * 2 + 1) % 2 ^ k = 5 := Nat.mod_eq_of_lt (by omega)
  rw [getA_closed_form (2 ^ k) (by omega), if_pos hm4, hfac,
    Finset.prod_singleton, h5]
  exact Nat.mod_eq_of_lt (by omega)

theorem nontrivialA_iff (m : ℕ) : nontrivialA m = true ↔ getA m % m ≠ 1 := by
  simp [nontrivialA]

/-! ## Lemmas for the queue walk: getC is the largest prime ≤ 3m/4+1 -/

theorem hasDivisorBelow_eq_false_iff (p : ℕ) (hp : 2 ≤ p) :
    hasDivisorBelow p = false ↔ p.Prime := by
  rw [hasDivisorBelow, ← Bool.not_eq_true, List.any_eq_true]
  constructor
  · intro hno
    rw [Nat.prime_def_lt]
    refine ⟨hp, fun d hdlt hddvd => ?_⟩
    by_contra hd1
    have hd0 : d ≠ 0 := by
      rintro rfl
      rw [Nat.zero_dvd] at hddvd
      omega
    have hd2 : 2 ≤ d := by omega
    refine hno ⟨d, ?_, ?_⟩
    · rw [List.mem_range'_1]
      omega
    · obtain ⟨t, rfl⟩ := hddvd
      simp [Nat.mul_mod_right]
  · intro hprime ⟨i, hmem, hdiv⟩
    rw [List.mem_range'_1] at hmem
    have : i ∣ p := Nat.dvd_of_mod_eq_zero (by simpa using hdiv)
    rcases (Nat.Prime.eq_one_or_self_of_dvd hprime i this) with rfl | rfl
    · omega
    · omega

theorem getCLoop_spec (p : ℕ) :
    ((getCLoop p).Prime ∨ getCLoop p = 1) ∧
    (∀ q, q.Prime → q ≤ p → q ≤ getCLoop p) ∧
    getCLoop p ≤ p + 1 := by
  induction p using Nat.strong_induction_on with
  | _ p ih =>
      rw [getCLoop]
      split_ifs with h1 h2
      · obtain ⟨ih1, ih2, ih3⟩ := ih (p - 1) (by omega)
        refine ⟨ih1, fun q hq hqp => ?_, by omega⟩
        have hqne : q ≠ p := by
          rintro rfl
          rw [← hasDivisorBelow_eq_false_iff q hq.two_le] at hq
          rw [hq] at h2
          cases h2
        exact ih2 q hq (by omega)
      · have hprime : p.Prime :=
          (hasDivisorBelow_eq_false_iff p (by omega)).mp
            (by simpa using h2)
        exact ⟨Or.inl hprime, fun q _ hqp => hqp, by omega⟩
      · refine ⟨Or.inr rfl, fun q hq hqp => ?_, by omega⟩
        have := hq.two_le
        omega

/-- Tight upper bound for `getCLoop`. -/
theorem getCLoop_le (p : ℕ) (hp : 1 ≤ p) : getCLoop p ≤ p := by
  induction p using Nat.strong_induction_on with
  | _ p ih =>
      rw [getCLoop]
      split_ifs with h1 h2
      · have := ih (p - 1) (by omega) (by omega)
        omega
      · omega
      · omega

/-! ## Lemmas for the queue walk: the constructor's modlength search -/

theorem findModlengthAux_spec :
    ∀ (fuel n : ℕ), (∃ j, j < fuel ∧ nontrivialA (n + j) = true) →
      nontrivialA (findModlengthAux fuel n) = true ∧
      n ≤ findModlengthAux fuel n
  | 0, n, h => absurd h (by simp)
  | fuel + 1, n, h => by
      rw [findModlengthAux]
      split_ifs with hnt
      · exact ⟨hnt, le_refl n⟩
      · obtain ⟨j, hj, hjnt⟩ := h
        have hj0 : j ≠ 0 := by
          rintro rfl
          rw [Nat.add_zero] at hjnt
          rw [hjnt] at hnt
          exact hnt rfl
        have hrec := findModlengthAux_spec fuel (n + 1)
          ⟨j - 1, by omega, by
            have : n + 1 + (j - 1) = n + j := by omega
            rw [this]
            exact hjnt⟩
        exact ⟨hrec.1, by omega⟩

theorem exists_nontrivial_within (n : ℕ) (hn : 3 ≤ n) :
    ∃ j, j < 2 * n + 8 ∧ nontrivialA (n + j) = true := by
  rcases le_or_lt n 8 with h8 | h8
  · refine ⟨8 - n, by omega, ?_⟩
    have heq8 : n + (8 - n) = 8 := by omega
    rw [heq8, nontrivialA_iff]
    have h5 := getA_pow2 3 (le_refl 3)
    norm_num at h5
    omega
  · set k := Nat.log 2 n + 1 with hk
    have hlow : n < 2 ^ k := Nat.lt_pow_succ_log_self (by omega) n
    have hhigh : 2 ^ k ≤ 2 * n := by
      rw [hk, pow_succ, mul_comm]
      exact Nat.mul_le_mul_left 2 (Nat.pow_log_le_self 2 (by omega))
    have hk3 : 3 ≤ k := by
      have : 3 ≤ Nat.log 2 n := by
        rw [← Nat.pow_le_iff_le_log (by omega) (by omega)]
        omega
      omega
    refine ⟨2 ^ k - n, by omega, ?_⟩
    have heq : n + (2 ^ k - n) = 2 ^ k := by omega
    rw [heq, nontrivialA_iff, getA_pow2 k hk3]
    omega

theorem findModlength_spec (n : ℕ) (hn : 3 ≤ n) :
    nontrivialA (findModlength n) = true ∧ n ≤ findModlength n :=
  findModlengthAux_spec (2 * n + 8) n (exists_nontrivial_within n hn)

/-! ## Lemmas for the queue walk: c does not divide m -/

theorem getC_prime (m : ℕ) (hm : 3 ≤ m) :
    (getC m).Prime ∧ getC m ≤ 3 * m / 4 + 1 ∧
    (∀ q, q.Prime → q ≤ 3 * m / 4 + 1 → q ≤ getC m) := by
  have hs : 3 ≤ 3 * m / 4 + 1 := by omega
  obtain ⟨h1, h2, _⟩ := getCLoop_spec (3 * m / 4 + 1)
  have h2le : 2 ≤ getC m := h2 2 Nat.prime_two (by omega)
  have hb := getCLoop_le (3 * m / 4 + 1) (by omega)
  refine ⟨?_, hb, h2⟩
  rcases h1 with hp | h1
  · exact hp
  · rw [getC] at h2le
    omega

theorem getC_not_dvd (m : ℕ) (hm : 3 ≤ m) (hnt : nontrivialA m = true) :
    ¬ getC m ∣ m := by
  intro hdvd
  obtain ⟨hcp, hcle, hcmax⟩ := getC_prime m hm
  set c := getC m with hc
  obtain ⟨p, hp, hcltp, hple⟩ :=
    Nat.exists_prime_lt_and_le_two_mul c (by have := hcp.two_le; omega)
  have hps : 3 * m / 4 + 1 < p := by
    by_contra hcon
    have := hcmax p hp (by omega)
    omega
  have h8c : 3 * m + 5 ≤ 8 * c := by omega
  obtain ⟨t, ht⟩ := hdvd
  have hc2 := hcp.two_le
  have ht2 : t ≤ 2 := by nlinarith
  rw [nontrivialA_iff] at hnt
  interval_cases t
  · omega
  · rw [Nat.mul_one] at ht
    exact hnt (ht ▸ getA_prime_trivial c hcp)
  · rcases hcp.eq_two_or_odd' with hc2eq | hodd
    · have hm4 : m = 4 := by omega
      rw [hm4] at hnt
      refine hnt ?_
      rw [getA_closed_form 4 (by norm_num)]
      have hpf : (4:ℕ).primeFactors = {2} := by
        have h42 : (4:ℕ) = 2 ^ 2 := by norm_num
        rw [h42, Nat.primeFactors_prime_pow (by norm_num) Nat.prime_two]
      rw [hpf]
      decide
    · have hmeq : m = 2 * c := by omega
      rw [hmeq] at hnt
      exact hnt (getA_two_prime_trivial c hcp hodd)

/-! ## Lemmas for the queue walk: the Hull-Dobell divisibility law -/

theorem lcgSum_succ (a n : ℕ) : lcgSum a (n + 1) = a * lcgSum a n + 1 := by
  rw [lcgSum, lcgSum, geom_sum_succ]

theorem lcgSum_one_base (n : ℕ) : lcgSum 1 n = n := by
  simp [lcgSum]

theorem lcgSum_pos (a n : ℕ) (hn : 1 ≤ n) : 1 ≤ lcgSum a n := by
  have h0 : (0 : ℕ) ∈ Finset.range n := Finset.mem_range.mpr (by omega)
  have hle := Finset.single_le_sum (fun (i : ℕ) _ => Nat.zero_le (a ^ i)) h0
  rw [lcgSum]
  simpa using hle

theorem sub_one_mul_lcgSum (a n : ℕ) (ha : 1 ≤ a) :
    (a - 1) * lcgSum a n = a ^ n - 1 := by
  have h1 : (1 : ℕ) ≤ a ^ n := Nat.one_le_pow n a (by omega)
  zify [ha, h1]
  rw [lcgSum]
  push_cast
  exact mul_geom_sum (a : ℤ) n

theorem lcgSum_mod_two (a n : ℕ) (ha : a % 2 = 1) :
    lcgSum a n % 2 = n % 2 := by
  induction n with
  | zero => rfl
  | succ n ih =>
    rw [lcgSum_succ]
    have hm := Nat.mul_mod a (lcgSum a n) 2
    rw [ha, ih] at hm
    omega

open multiplicity in
theorem emultiplicity_lcgSum (p a n : ℕ) (hp : p.Prime) (ha : 2 ≤ a)
    (hpa : p ∣ a - 1) (hcase : Odd p ∨ 4 ∣ a - 1) (hn : 1 ≤ n) :
    emultiplicity p (lcgSum a n) = emultiplicity p n := by
  have hX1 : (a : ℤ) - 1 ≠ 0 := by
    have : (2 : ℤ) ≤ (a : ℤ) := by exact_mod_cast ha
    omega
  have hpZ : Prime ((p : ℕ) : ℤ) := Nat.prime_iff_prime_int.mp hp
  have hdvdZ : ((p : ℕ) : ℤ) ∣ (a : ℤ) - 1 := by
    have h := Int.natCast_dvd_natCast.mpr hpa
    rwa [Nat.cast_sub (by omega), Nat.cast_one] at h
  have hndvd : ¬ ((p : ℕ) : ℤ) ∣ (a : ℤ) := by
    intro h
    have hpn : p ∣ a := by exact_mod_cast h
    have h1 : p ∣ 1 := by
      have hsub := Nat.dvd_sub' hpn hpa
      rwa [Nat.sub_sub_self (by omega)] at hsub
    have := Nat.dvd_one.mp h1
    have := hp.one_lt
    omega
  have hident : ((a : ℤ) - 1) * ((lcgSum a n : ℕ) : ℤ) =
      (a : ℤ) ^ n - 1 ^ n := by
    rw [one_pow, lcgSum]
    push_cast
    exact mul_geom_sum (a : ℤ) n
  have hLTE : emultiplicity ((p : ℕ) : ℤ) ((a : ℤ) ^ n - 1 ^ n) =
      emultiplicity ((p : ℕ) : ℤ) ((a : ℤ) - 1) + emultiplicity p n := by
    rcases hp.eq_two_or_odd' with rfl | hoddp
    · have h4 : 4 ∣ a - 1 := by
        rcases hcase with h | h
        · exact absurd h (by decide)
        · exact h
      have h4Z : (4 : ℤ) ∣ (a : ℤ) - 1 := by
        obtain ⟨t, ht⟩ := h4
        refine ⟨(t : ℤ), ?_⟩
        have hat : a = 4 * t + 1 := by omega
        rw [hat]
        push_cast
        ring
      have hcast : (((2 : ℕ) : ℤ)) = (2 : ℤ) := by norm_num
      have h2 := Int.two_pow_sub_pow' n h4Z (by rwa [hcast] at hndvd)
      rw [hcast, h2]
      congr 1
      rw [← Int.natCast_emultiplicity 2 n, hcast]
    · exact Int.pow_sub_pow hp hoddp hdvdZ hndvd n
  have hfin : multiplicity.Finite ((p : ℕ) : ℤ) ((a : ℤ) - 1) :=
    Int.multiplicity_finite_iff.mpr
      ⟨by simpa using hp.ne_one, hX1⟩
  have hmain : emultiplicity ((p : ℕ) : ℤ) ((a : ℤ) - 1) +
        emultiplicity ((p : ℕ) : ℤ) ((lcgSum a n : ℕ) : ℤ) =
      emultiplicity ((p : ℕ) : ℤ) ((a : ℤ) - 1) + emultiplicity p n := by
    rw [← emultiplicity_mul hpZ, hident, hLTE]
  have hcancel := WithTop.add_left_cancel hfin.emultiplicity_ne_top hmain
  rw [← Int.natCast_emultiplicity p (lcgSum a n)]
  exact hcancel

theorem pow_dvd_lcgSum_iff (p k a n : ℕ) (hp : p.Prime) (ha : 1 ≤ a)
    (hpa : p ∣ a - 1) (h2 : p = 2 → 2 ≤ k → 4 ∣ a - 1) :
    (p ^ k ∣ lcgSum a n ↔ p ^ k ∣ n) := by
  rcases Nat.eq_zero_or_pos k with rfl | hk
  · simp
  rcases Nat.eq_zero_or_pos n with rfl | hn
  · simp [lcgSum]
  rcases eq_or_lt_of_le ha with rfl | h2a
  · rw [lcgSum_one_base]
  by_cases hp21 : p = 2 ∧ k = 1
  · obtain ⟨rfl, rfl⟩ := hp21
    have haodd : a % 2 = 1 := by
      obtain ⟨t, ht⟩ := hpa
      omega
    have hm2 := lcgSum_mod_two a n haodd
    simp only [pow_one]
    omega
  have hcase : Odd p ∨ 4 ∣ a - 1 := by
    rcases hp.eq_two_or_odd' with hpe | hodd
    · right
      refine h2 hpe ?_
      have hk1 : k ≠ 1 := fun hk1 => hp21 ⟨hpe, hk1⟩
      omega
    · left
      exact hodd
  have hE := emultiplicity_lcgSum p a n hp (by omega) hpa hcase hn
  rw [pow_dvd_iff_le_emultiplicity, pow_dvd_iff_le_emultiplicity, hE]

theorem dvd_lcgSum_iff (m a n : ℕ) (ha : 1 ≤ a)
    (hpa : ∀ p, p.Prime → p ∣ m → p ∣ a - 1) (h4 : 4 ∣ m → 4 ∣ a - 1) :
    (m ∣ lcgSum a n ↔ m ∣ n) := by
  have hpoint : ∀ p k : ℕ, p.Prime → p ^ k ∣ m →
      (p ^ k ∣ lcgSum a n ↔ p ^ k ∣ n) := by
    intro p k hpk hdvd
    rcases Nat.eq_zero_or_pos k with rfl | hk
    · simp
    have hpm : p ∣ m :=
      dvd_trans (dvd_pow_self p (by omega : k ≠ 0)) hdvd
    refine pow_dvd_lcgSum_iff p k a n hpk ha (hpa p hpk hpm) ?_
    intro hpe hk2
    refine h4 ?_
    have h42 : (4 : ℕ) = 2 ^ 2 := by norm_num
    rw [h42]
    calc (2 : ℕ) ^ 2 ∣ 2 ^ k := pow_dvd_pow 2 hk2
    _ ∣ m := hpe ▸ hdvd
  rw [Nat.dvd_iff_prime_pow_dvd_dvd (lcgSum a n) m,
    Nat.dvd_iff_prime_pow_dvd_dvd n m]
  constructor
  · intro h p k hpk hdvd
    exact (hpoint p k hpk hdvd).mp (h p k hpk hdvd)
  · intro h p k hpk hdvd
    exact (hpoint p k hpk hdvd).mpr (h p k hpk hdvd)

/-! ## Lemmas for the queue walk: the raw orbit is a full cycle -/

theorem lcgOrbit_lt (a c m x : ℕ) (hm : 1 ≤ m) (hx : x < m) :
    ∀ k, lcgOrbit a c m x k < m
  | 0 => hx
  | k + 1 => by
    rw [lcgOrbit, lcgStep]
    exact Nat.mod_lt _ (by omega)

theorem lcgOrbit_add (a c m x i : ℕ) :
    ∀ d, lcgOrbit a c m x (i + d) =
      lcgOrbit a c m (lcgOrbit a c m x i) d
  | 0 => rfl
  | d + 1 => by
    have h : i + (d + 1) = (i + d) + 1 := by omega
    rw [h, lcgOrbit, lcgOrbit_add a c m x i d, lcgOrbit]

theorem lcgOrbit_shift (a c m y : ℕ) :
    ∀ s, lcgOrbit a c m (lcgStep a c m y) s = lcgOrbit a c m y (s + 1)
  | 0 => rfl
  | s + 1 => by
    rw [lcgOrbit, lcgOrbit_shift a c m y s]
    conv_rhs => rw [lcgOrbit]

theorem lcgOrbit_closed (a c m x : ℕ) (hm : 1 ≤ m) (hx : x < m) :
    ∀ k, lcgOrbit a c m x k = (a ^ k * x + c * lcgSum a k) % m
  | 0 => by
    simp [lcgOrbit, lcgSum, Nat.mod_eq_of_lt hx]
  | k + 1 => by
    rw [lcgOrbit, lcgOrbit_closed a c m x hm hx k, lcgStep]
    have h1 : (a * ((a ^ k * x + c * lcgSum a k) % m) + c) % m
        = (a * (a ^ k * x + c * lcgSum a k) + c) % m := by
      conv_lhs => rw [Nat.add_mod, Nat.mul_mod, Nat.mod_mod]
      rw [← Nat.mul_mod, ← Nat.add_mod]
    rw [h1]
    congr 1
    rw [lcgSum_succ, pow_succ]
    ring

theorem lcgOrbit_return (a c m y d : ℕ) (ha : 1 ≤ a)
    (hpa : ∀ p, p.Prime → p ∣ m → p ∣ a - 1) (h4 : 4 ∣ m → 4 ∣ a - 1)
    (hc : Nat.Coprime c m) (hm : 1 ≤ m) (hy : y < m)
    (hret : lcgOrbit a c m y d = y) : m ∣ d := by
  have hcf := lcgOrbit_closed a c m y hm hy d
  rw [hret] at hcf
  have hMod : (a ^ d * y + c * lcgSum a d) % m = y % m := by
    rw [← hcf, Nat.mod_eq_of_lt hy]
  have h1 : 1 ≤ a ^ d := Nat.one_le_pow _ _ (by omega)
  have hyle : y ≤ a ^ d * y + c * lcgSum a d := by
    calc y = 1 * y := (one_mul y).symm
    _ ≤ a ^ d * y := Nat.mul_le_mul_right y h1
    _ ≤ _ := Nat.le_add_right _ _
  have hdvd : m ∣ (a ^ d * y + c * lcgSum a d) - y :=
    (Nat.modEq_iff_dvd' hyle).mp hMod.symm
  have hyA : y ≤ a ^ d * y := Nat.le_mul_of_pos_left y (by omega)
  have hre : (a ^ d * y + c * lcgSum a d) - y
      = lcgSum a d * ((a - 1) * y + c) := by
    have hgeo := sub_one_mul_lcgSum a d ha
    have hcalc : lcgSum a d * ((a - 1) * y + c)
        = ((a - 1) * lcgSum a d) * y + c * lcgSum a d := by ring
    rw [hcalc, hgeo, Nat.sub_mul, one_mul]
    omega
  rw [hre] at hdvd
  have hcop : Nat.Coprime m ((a - 1) * y + c) := by
    by_contra hncop
    obtain ⟨p, hp, hpm, hpK⟩ := Nat.Prime.not_coprime_iff_dvd.mp hncop
    have hpa1 : p ∣ (a - 1) * y := Dvd.dvd.mul_right (hpa p hp hpm) y
    have hpc : p ∣ c := (Nat.dvd_add_right hpa1).mp hpK
    have hpg : p ∣ Nat.gcd c m := Nat.dvd_gcd hpc hpm
    have hg1 : Nat.gcd c m = 1 := hc
    rw [hg1] at hpg
    have := Nat.dvd_one.mp hpg
    have := hp.one_lt
    omega
  have hdS : m ∣ lcgSum a d := hcop.dvd_of_dvd_mul_right hdvd
  exact (dvd_lcgSum_iff m a d ha hpa h4).mp hdS

theorem lcgOrbit_inj (a c m x : ℕ) (ha : 1 ≤ a)
    (hpa : ∀ p, p.Prime → p ∣ m → p ∣ a - 1) (h4 : 4 ∣ m → 4 ∣ a - 1)
    (hc : Nat.Coprime c m) (hm : 1 ≤ m) (hx : x < m)
    (i j : ℕ) (hi : i < m) (hj : j < m)
    (heq : lcgOrbit a c m x i = lcgOrbit a c m x j) : i = j := by
  have haux : ∀ i j : ℕ, i ≤ j → j < m →
      lcgOrbit a c m x i = lcgOrbit a c m x j → i = j := by
    intro i j hij hjm he
    obtain ⟨d, rfl⟩ := Nat.exists_eq_add_of_le hij
    have hcomp := lcgOrbit_add a c m x i d
    have hyi : lcgOrbit a c m x i < m := lcgOrbit_lt a c m x hm hx i
    have hret : lcgOrbit a c m (lcgOrbit a c m x i) d
        = lcgOrbit a c m x i := by
      rw [← hcomp, ← he]
    have hmd : m ∣ d :=
      lcgOrbit_return a c m (lcgOrbit a c m x i) d ha hpa h4 hc hm hyi hret
    have hd0 : d = 0 := Nat.eq_zero_of_dvd_of_lt hmd (by omega)
    omega
  rcases le_total i j with h | h
  · exact haux i j h hj heq
  · exact (haux j i h hi heq.symm).symm

theorem lcgOrbit_surj (a c m x : ℕ) (ha : 1 ≤ a)
    (hpa : ∀ p, p.Prime → p ∣ m → p ∣ a - 1) (h4 : 4 ∣ m → 4 ∣ a - 1)
    (hc : Nat.Coprime c m) (hm : 1 ≤ m) (hx : x < m)
    (y : ℕ) (hy : y < m) : ∃ k, k < m ∧ lcgOrbit a c m x k = y := by
  have hinj : Function.Injective
      (fun k : Fin m =>
        (⟨lcgOrbit a c m x k.val, lcgOrbit_lt a c m x hm hx k.val⟩ :
          Fin m)) := by
    intro k1 k2 h
    have h2 : lcgOrbit a c m x k1.val = lcgOrbit a c m x k2.val :=
      congrArg Fin.val h
    exact Fin.ext
      (lcgOrbit_inj a c m x ha hpa h4 hc hm hx _ _ k1.isLt k2.isLt h2)
  have hsurj := Finite.injective_iff_surjective.mp hinj
  obtain ⟨k, hk⟩ := hsurj ⟨y, hy⟩
  exact ⟨k.val, k.isLt, congrArg Fin.val hk⟩

/-! ## Lemmas for the queue walk: the skip loop follows the orbit -/

theorem skipLoop_spec (a c m N : ℕ) :
    ∀ fuel y t, t < fuel → lcgOrbit a c m y t < N →
      (∀ s, s < t → ¬ lcgOrbit a c m y s < N) →
      skipLoop a c m N fuel y = lcgOrbit a c m y t
  | 0, _, _ => fun ht _ _ => absurd ht (by omega)
  | fuel + 1, y, t => fun ht hhit hmin => by
    rw [skipLoop]
    by_cases hy : y < N
    · rw [if_pos hy]
      have ht0 : t = 0 := by
        by_contra h0
        exact hmin 0 (by omega) hy
      rw [ht0]
      rfl
    · rw [if_neg hy]
      have ht0 : t ≠ 0 := by
        intro h0
        rw [h0] at hhit
        exact hy hhit
      obtain ⟨t', rfl⟩ : ∃ t', t = t' + 1 := ⟨t - 1, by omega⟩
      have hs := lcgOrbit_shift a c m y
      have happ := skipLoop_spec a c m N fuel (lcgStep a c m y) t'
        (by omega)
        (by rw [hs]; exact hhit)
        (by intro s hslt; rw [hs]; exact hmin (s + 1) (by omega))
      rw [happ, hs]

theorem hitDelay_spec (a c m N : ℕ) :
    ∀ fuel y t, t < fuel → lcgOrbit a c m y t < N →
      hitDelay a c m N fuel y ≤ t ∧
      lcgOrbit a c m y (hitDelay a c m N fuel y) < N ∧
      (∀ s, s < hitDelay a c m N fuel y → ¬ lcgOrbit a c m y s < N)
  | 0, _, t => fun ht _ => absurd ht (by omega)
  | fuel + 1, y, t => fun ht hhit => by
    rw [hitDelay]
    by_cases hy : y < N
    · rw [if_pos hy]
      exact ⟨Nat.zero_le t, hy, fun s hsl => absurd hsl (by omega)⟩
    · rw [if_neg hy]
      have ht0 : t ≠ 0 := by
        intro h0
        rw [h0] at hhit
        exact hy hhit
      obtain ⟨t', rfl⟩ : ∃ t', t = t' + 1 := ⟨t - 1, by omega⟩
      have hs := lcgOrbit_shift a c m y
      obtain ⟨h1, h2, h3⟩ :=
        hitDelay_spec a c m N fuel (lcgStep a c m y) t'
          (by omega)
          (by rw [hs]; exact hhit)
      refine ⟨by omega, ?_, ?_⟩
      · rw [← hs]
        exact h2
      · intro s hslt
        rcases s with _ | s
        · exact hy
        · intro hcon
          rw [← hs] at hcon
          exact h3 s (by omega) hcon

theorem nextStep_eq_orbit (a c m N : ℕ) (ha : 1 ≤ a)
    (hpa : ∀ p, p.Prime → p ∣ m → p ∣ a - 1) (h4 : 4 ∣ m → 4 ∣ a - 1)
    (hc : Nat.Coprime c m) (hm : 1 ≤ m) (hN : 1 ≤ N)
    (y : ℕ) :
    nextStep a c m N y =
      lcgOrbit a c m (lcgStep a c m y)
        (hitDelay a c m N (m + 1) (lcgStep a c m y)) ∧
    lcgOrbit a c m (lcgStep a c m y)
      (hitDelay a c m N (m + 1) (lcgStep a c m y)) < N ∧
    (∀ s, s < hitDelay a c m N (m + 1) (lcgStep a c m y) →
      ¬ lcgOrbit a c m (lcgStep a c m y) s < N) := by
  have hy1 : lcgStep a c m y < m := by
    rw [lcgStep]
    exact Nat.mod_lt _ (by omega)
  obtain ⟨t, htm, hto⟩ :=
    lcgOrbit_surj a c m (lcgStep a c m y) ha hpa h4 hc hm hy1 0 (by omega)
  have hhit : lcgOrbit a c m (lcgStep a c m y) t < N := by
    rw [hto]
    omega
  obtain ⟨h1, h2, h3⟩ :=
    hitDelay_spec a c m N (m + 1) (lcgStep a c m y) t (by omega) hhit
  refine ⟨?_, h2, h3⟩
  rw [nextStep]
  exact skipLoop_spec a c m N (m + 1) (lcgStep a c m y) _ (by omega) h2 h3

/-! ## Lemmas for the queue walk: the walk is a permutation of the
in-range residues -/

theorem walk_covers (a c m N : ℕ) (ha : 1 ≤ a)
    (hpa : ∀ p, p.Prime → p ∣ m → p ∣ a - 1) (h4 : 4 ∣ m → 4 ∣ a - 1)
    (hc : Nat.Coprime c m) (hNm : N ≤ m) (hN2 : 2 ≤ N) :
    (walkNexts a c m N N 1).length = N ∧
    (walkNexts a c m N N 1).Nodup ∧
    (∀ v ∈ walkNexts a c m N N 1, v < N) ∧
    (∀ s, s < N → s ∈ walkNexts a c m N N 1) := by
  have hm : 1 ≤ m := by omega
  have hx : (1 : ℕ) < m := by omega
  have hOlt : ∀ k, lcgOrbit a c m 1 k < m := lcgOrbit_lt a c m 1 hm hx
  have hTsucc : ∀ i, walkTime a c m N (i + 1) =
      walkTime a c m N i + 1 +
        hitDelay a c m N (m + 1)
          (lcgStep a c m (lcgOrbit a c m 1 (walkTime a c m N i))) :=
    fun _ => rfl
  have horb : ∀ i s, lcgOrbit a c m 1 (walkTime a c m N i + 1 + s) =
      lcgOrbit a c m
        (lcgStep a c m (lcgOrbit a c m 1 (walkTime a c m N i))) s := by
    intro i s
    have h := lcgOrbit_add a c m 1 (walkTime a c m N i + 1) s
    have h2 : lcgOrbit a c m 1 (walkTime a c m N i + 1) =
        lcgStep a c m (lcgOrbit a c m 1 (walkTime a c m N i)) := rfl
    rw [h, h2]
  have hkey : ∀ i,
      nextStep a c m N (lcgOrbit a c m 1 (walkTime a c m N i)) =
        lcgOrbit a c m 1 (walkTime a c m N (i + 1)) ∧
      lcgOrbit a c m 1 (walkTime a c m N (i + 1)) < N ∧
      (∀ u, walkTime a c m N i < u → u < walkTime a c m N (i + 1) →
        ¬ lcgOrbit a c m 1 u < N) := by
    intro i
    obtain ⟨h1, h2, h3⟩ :=
      nextStep_eq_orbit a c m N ha hpa h4 hc hm (by omega)
        (lcgOrbit a c m 1 (walkTime a c m N i))
    refine ⟨?_, ?_, ?_⟩
    · rw [h1, hTsucc i]
      exact (horb i _).symm
    · rw [hTsucc i, horb i]
      exact h2
    · intro u hu1 hu2
      rw [hTsucc i] at hu2
      obtain ⟨s, rfl⟩ : ∃ s, u = walkTime a c m N i + 1 + s :=
        ⟨u - (walkTime a c m N i + 1), by omega⟩
      rw [horb i s]
      exact h3 s (by omega)
  have hPT : ∀ i, lcgOrbit a c m 1 (walkTime a c m N i) < N := by
    intro i
    cases i with
    | zero =>
      have h0 : lcgOrbit a c m 1 (walkTime a c m N 0) = 1 := rfl
      omega
    | succ i => exact (hkey i).2.1
  have hTmono : StrictMono (walkTime a c m N) :=
    strictMono_nat_of_lt_succ (fun i => by rw [hTsucc i]; omega)
  have hbelow : ∀ i k, lcgOrbit a c m 1 k < N →
      k ≤ walkTime a c m N i → ∃ l, l ≤ i ∧ walkTime a c m N l = k := by
    intro i
    induction i with
    | zero =>
      intro k _ hkle
      have h0 : walkTime a c m N 0 = 0 := rfl
      exact ⟨0, le_refl 0, by omega⟩
    | succ i ih =>
      intro k hk hkle
      by_cases hki : k ≤ walkTime a c m N i
      · obtain ⟨l, hl, hlk⟩ := ih k hk hki
        exact ⟨l, by omega, hlk⟩
      · rcases eq_or_lt_of_le hkle with he | hlt
        · exact ⟨i + 1, le_refl _, he.symm⟩
        · exact absurd hk ((hkey i).2.2 k (by omega) hlt)
  have hcardS : ((Finset.range m).filter
      (fun k => lcgOrbit a c m 1 k < N)).card = N := by
    have hi : ∀ k (hk : k ∈ (Finset.range m).filter
        (fun k => lcgOrbit a c m 1 k < N)),
        lcgOrbit a c m 1 k ∈ Finset.range N := by
      intro k hk
      rw [Finset.mem_filter] at hk
      exact Finset.mem_range.mpr hk.2
    have hb := Finset.card_bij
      (fun k (_ : k ∈ (Finset.range m).filter
        (fun k => lcgOrbit a c m 1 k < N)) => lcgOrbit a c m 1 k)
      hi ?_ ?_
    · rw [hb, Finset.card_range]
    · intro k1 hk1 k2 hk2 he
      rw [Finset.mem_filter, Finset.mem_range] at hk1 hk2
      exact lcgOrbit_inj a c m 1 ha hpa h4 hc hm hx k1 k2 hk1.1 hk2.1 he
    · intro y hy
      rw [Finset.mem_range] at hy
      obtain ⟨k, hkm, hko⟩ :=
        lcgOrbit_surj a c m 1 ha hpa h4 hc hm hx y (by omega)
      refine ⟨k, ?_, hko⟩
      rw [Finset.mem_filter, Finset.mem_range]
      exact ⟨hkm, by rw [hko]; exact hy⟩
  have hTltm : ∀ i, i < N → walkTime a c m N i < m := by
    intro i hiN
    by_contra hge
    push_neg at hge
    have hexj : ∃ j, m ≤ walkTime a c m N j := ⟨i, hge⟩
    have hjspec : m ≤ walkTime a c m N (Nat.find hexj) :=
      Nat.find_spec hexj
    have hjmin : ∀ l, l < Nat.find hexj → walkTime a c m N l < m := by
      intro l hl
      have := Nat.find_min hexj hl
      omega
    have hji : Nat.find hexj ≤ i := by
      by_contra hc2
      push_neg at hc2
      have := hjmin i hc2
      omega
    have hsub : (Finset.range m).filter
        (fun k => lcgOrbit a c m 1 k < N) ⊆
        Finset.image (walkTime a c m N) (Finset.range (Nat.find hexj)) := by
      intro k hk
      rw [Finset.mem_filter, Finset.mem_range] at hk
      obtain ⟨l, hlj, hlk⟩ := hbelow (Nat.find hexj) k hk.2 (by omega)
      have hlj2 : l < Nat.find hexj := by
        rcases eq_or_lt_of_le hlj with rfl | h
        · omega
        · exact h
      exact Finset.mem_image.mpr ⟨l, Finset.mem_range.mpr hlj2, hlk⟩
    have hcard2 := Finset.card_le_card hsub
    have hcard3 : (Finset.image (walkTime a c m N)
        (Finset.range (Nat.find hexj))).card ≤
        (Finset.range (Nat.find hexj)).card := Finset.card_image_le
    rw [hcardS] at hcard2
    rw [Finset.card_range] at hcard3
    omega
  have himg : Finset.image (walkTime a c m N) (Finset.range N) =
      (Finset.range m).filter (fun k => lcgOrbit a c m 1 k < N) := by
    apply Finset.eq_of_subset_of_card_le
    · intro k hk
      obtain ⟨l, hl, rfl⟩ := Finset.mem_image.mp hk
      rw [Finset.mem_range] at hl
      rw [Finset.mem_filter, Finset.mem_range]
      exact ⟨hTltm l hl, hPT l⟩
    · rw [hcardS]
      have hinj : Set.InjOn (walkTime a c m N) (Finset.range N) :=
        fun u _ v _ h => hTmono.injective h
      rw [Finset.card_image_of_injOn hinj, Finset.card_range]
  have hwalk : ∀ n i,
      walkNexts a c m N n (lcgOrbit a c m 1 (walkTime a c m N i)) =
      (List.range n).map
        (fun j => lcgOrbit a c m 1 (walkTime a c m N (i + j))) := by
    intro n
    induction n with
    | zero => intro i; rfl
    | succ n ih =>
      intro i
      rw [walkNexts, (hkey i).1, ih (i + 1), List.range_succ_eq_map]
      simp only [List.map_cons, List.map_map]
      congr 1
      apply List.map_congr_left
      intro j _
      simp only [Function.comp]
      have he : i + 1 + j = i + (j + 1) := by omega
      rw [he]
  have hwn : walkNexts a c m N N 1 =
      (List.range N).map (fun j => lcgOrbit a c m 1 (walkTime a c m N j)) := by
    calc walkNexts a c m N N 1
        = walkNexts a c m N N (lcgOrbit a c m 1 (walkTime a c m N 0)) := rfl
    _ = (List.range N).map
          (fun j => lcgOrbit a c m 1 (walkTime a c m N (0 + j))) :=
        hwalk N 0
    _ = (List.range N).map
          (fun j => lcgOrbit a c m 1 (walkTime a c m N j)) := by
        apply List.map_congr_left
        intro j _
        rw [Nat.zero_add]
  refine ⟨?_, ?_, ?_, ?_⟩
  · rw [hwn]
    simp
  · rw [hwn]
    refine List.Nodup.map_on ?_ (List.nodup_range N)
    intro u hu v hv he
    rw [List.mem_range] at hu hv
    exact hTmono.injective
      (lcgOrbit_inj a c m 1 ha hpa h4 hc hm hx _ _
        (hTltm u hu) (hTltm v hv) he)
  · rw [hwn]
    intro v hv
    obtain ⟨j, hj, rfl⟩ := List.mem_map.mp hv
    exact hPT j
  · intro s hsN
    rw [hwn]
    obtain ⟨k, hkm, hko⟩ :=
      lcgOrbit_surj a c m 1 ha hpa h4 hc hm hx s (by omega)
    have hkS : k ∈ (Finset.range m).filter
        (fun k => lcgOrbit a c m 1 k < N) := by
      rw [Finset.mem_filter, Finset.mem_range]
      exact ⟨hkm, by rw [hko]; exact hsN⟩
    rw [← himg] at hkS
    obtain ⟨l, hl, hlk⟩ := Finset.mem_image.mp hkS
    rw [Finset.mem_range] at hl
    exact List.mem_map.mpr
      ⟨l, List.mem_range.mpr hl, by rw [hlk, hko]⟩

/-! ## Lemmas for the queue walk: the search probes the walk's indices -/

theorem searchAux_eq_find (a c m N : ℕ) (match? locked : ℕ → Bool)
    (first : ℕ) :
    ∀ n v, searchAux a c m N match? locked first n v =
      ((walkNexts a c m N n v).map (fun w => (w + first) % N)).find?
        (fun i => match? i && !locked i)
  | 0, _ => rfl
  | n + 1, v => by
    simp only [searchAux, walkNexts, List.map_cons]
    by_cases hp :
        (match? ((v + first) % N) && !locked ((v + first) % N)) = true
    · rw [if_pos hp]
      simp only [List.find?_cons, hp]
    · rw [if_neg hp, searchAux_eq_find a c m N match? locked first n
        (nextStep a c m N v)]
      have hp2 : (match? ((v + first) % N) &&
          !locked ((v + first) % N)) = false := by
        simpa using hp
      simp only [List.find?_cons, hp2]

theorem getRandomSearch_eq_find (a c m N : ℕ)
    (match? locked : ℕ → Bool) (first : ℕ) :
    GetRandomSearch a c m N match? locked first =
      (walkIndices a c m N first).find?
        (fun i => match? i && !locked i) := by
  rw [GetRandomSearch, walkIndices]
  exact searchAux_eq_find a c m N match? locked first N 1

theorem find_unique (l : List ℕ) (P : ℕ → Bool) (s : ℕ)
    (hmem : s ∈ l) (hs : P s = true)
    (huniq : ∀ x ∈ l, P x = true → x = s) :
    l.find? P = some s := by
  induction l with
  | nil => cases hmem
  | cons a l ih =>
    by_cases hpa : P a = true
    · have ha : a = s := huniq a (List.mem_cons_self a l) hpa
      rw [List.find?_cons_of_pos _ hpa, ha]
    · rw [List.find?_cons_of_neg _ (by simpa using hpa)]
      have hmem2 : s ∈ l := by
        rcases List.mem_cons.mp hmem with rfl | h
        · exact absurd hs hpa
        · exact h
      exact ih hmem2 (fun x hx hPx => huniq x (List.mem_cons_of_mem a hx) hPx)

theorem walkIndices_lt (a c m N first : ℕ) (hN : 1 ≤ N) :
    ∀ v ∈ walkIndices a c m N first, v < N := by
  intro v hv
  rw [walkIndices] at hv
  obtain ⟨w, _, rfl⟩ := List.mem_map.mp hv
  exact Nat.mod_lt _ (by omega)

theorem walkIndices_props (a c m N first : ℕ) (ha : 1 ≤ a)
    (hpa : ∀ p, p.Prime → p ∣ m → p ∣ a - 1) (h4 : 4 ∣ m → 4 ∣ a - 1)
    (hc : Nat.Coprime c m) (hNm : N ≤ m) (hN2 : 2 ≤ N) (hf : first < N) :
    (walkIndices a c m N first).length = N ∧
    (walkIndices a c m N first).Nodup ∧
    (∀ s, s < N → s ∈ walkIndices a c m N first) := by
  obtain ⟨hlen, hnd, hlt, hcov⟩ := walk_covers a c m N ha hpa h4 hc hNm hN2
  refine ⟨?_, ?_, ?_⟩
  · rw [walkIndices, List.length_map, hlen]
  · rw [walkIndices]
    refine List.Nodup.map_on ?_ hnd
    intro x hx y hy he
    have hxN := hlt x hx
    have hyN := hlt y hy
    have h2 : Nat.ModEq N x y := Nat.ModEq.add_right_cancel' first he
    have h3 : x % N = y % N := h2
    rwa [Nat.mod_eq_of_lt hxN, Nat.mod_eq_of_lt hyN] at h3
  · intro s hsN
    rw [walkIndices]
    have hu : ((s + (N - first)) % N + first) % N = s := by
      rw [Nat.mod_add_mod]
      have he : s + (N - first) + first = s + N := by omega
      rw [he, Nat.add_mod_right, Nat.mod_eq_of_lt hsN]
    have humem := hcov ((s + (N - first)) % N) (Nat.mod_lt _ (by omega))
    exact List.mem_map.mpr ⟨_, humem, hu⟩

/-- **C3**: for every queue size `N ≥ 1`, with the constructor-chosen
generator `(a, c, m)` (`queueGen N`) and every starting offset
`first < N`, the slot indices `(next + first) % N` probed by the
`q_size_` iterations of `GetRandomWithPredicateTag` — `next` starting
at 1 and advancing by `next = (a*next + c) % m`, discarding values
`≥ N` — visit every slot of `[0, N)` exactly once; hence a search over
a queue holding exactly one matching, unlocked slot finds that slot. -/
theorem queue_walk_visits_all (N : ℕ) (hN : 1 ≤ N) (a c m : ℕ)
    (hg : queueGen N = (a, c, m)) (first : ℕ) (hf : first < N) :
    (walkIndices a c m N first).length = N ∧
    (walkIndices a c m N first).Nodup ∧
    (∀ s, s < N → s ∈ walkIndices a c m N first) ∧
    (∀ match? locked : ℕ → Bool, ∀ s, s < N →
      (match? s && !locked s) = true →
      (∀ j, j < N → (match? j && !locked j) = true → j = s) →
      GetRandomSearch a c m N match? locked first = some s) := by
  have hstruct : (walkIndices a c m N first).length = N ∧
      (walkIndices a c m N first).Nodup ∧
      (∀ s, s < N → s ∈ walkIndices a c m N first) := by
    rcases lt_or_le N 3 with hN3 | hN3
    · interval_cases N
      · have hg1 : queueGen 1 = (1, 1, 1) := rfl
        rw [hg1] at hg
        simp only [Prod.mk.injEq] at hg
        obtain ⟨rfl, rfl, rfl⟩ := hg
        have hf0 : first = 0 := by omega
        subst hf0
        have hwi : walkIndices 1 1 1 1 0 = [0] := rfl
        rw [hwi]
        refine ⟨rfl, by decide, ?_⟩
        intro s hs
        have hs0 : s = 0 := by omega
        subst hs0
        exact List.mem_singleton_self 0
      · have hg1 : queueGen 2 = (1, 1, 2) := rfl
        rw [hg1] at hg
        simp only [Prod.mk.injEq] at hg
        obtain ⟨rfl, rfl, rfl⟩ := hg
        refine walkIndices_props 1 1 2 2 first (by omega) ?_ ?_
          (Nat.coprime_one_left 2) (by omega) (by omega) hf
        · intro p _ _
          simp
        · intro h
          exact absurd h (by decide)
    · rw [queueGen, if_neg (by omega)] at hg
      simp only [Prod.mk.injEq] at hg
      obtain ⟨rfl, rfl, rfl⟩ := hg
      have hfm := findModlength_spec N hN3
      have hm3 : 3 ≤ findModlength N := by omega
      have hA := getA_dvd_conditions (findModlength N) (by omega)
      have hcp := getC_prime (findModlength N) hm3
      have hnd := getC_not_dvd (findModlength N) hm3 hfm.1
      have hcop : Nat.Coprime (getC (findModlength N)) (findModlength N) :=
        (Nat.Prime.coprime_iff_not_dvd hcp.1).mpr hnd
      exact walkIndices_props _ _ _ N first hA.1 hA.2.1 hA.2.2 hcop
        hfm.2 (by omega) hf
  have hltP : ∀ v ∈ walkIndices a c m N first, v < N :=
    walkIndices_lt a c m N first (by omega)
  refine ⟨hstruct.1, hstruct.2.1, hstruct.2.2, ?_⟩
  intro match? locked s hsN hPs huni
  rw [getRandomSearch_eq_find]
  exact find_unique _ _ s (hstruct.2.2 s hsN) hPs
    (fun x hx hPx => huni x (hltP x hx) hPx)

/-! ## Concrete evaluation of the constructor's choice at queue size 3 -/

theorem getA_four : getA 4 % 4 = 1 := by
  have h := getA_closed_form 4 (by norm_num)
  have hpf : (4 : ℕ).primeFactors = {2} := by
    have h42 : (4 : ℕ) = 2 ^ 2 := by norm_num
    rw [h42, Nat.primeFactors_prime_pow (by norm_num) Nat.prime_two]
  rw [h, hpf]
  decide

theorem findModlength_three : findModlength 3 = 8 := by
  have step : ∀ fuel n, nontrivialA n = false →
      findModlengthAux (fuel + 1) n = findModlengthAux fuel (n + 1) := by
    intro fuel n h
    show (if nontrivialA n = true then n
      else findModlengthAux fuel (n + 1)) = findModlengthAux fuel (n + 1)
    rw [h]
    simp
  have stop2 : ∀ fuel n, nontrivialA n = true →
      findModlengthAux (fuel + 1) n = n := by
    intro fuel n h
    show (if nontrivialA n = true then n
      else findModlengthAux fuel (n + 1)) = n
    rw [h]
    simp
  have h3 : nontrivialA 3 = false := by
    simp [nontrivialA, getA_prime_trivial 3 (by norm_num)]
  have h4 : nontrivialA 4 = false := by
    simp [nontrivialA, getA_four]
  have h5 : nontrivialA 5 = false := by
    simp [nontrivialA, getA_prime_trivial 5 (by norm_num)]
  have h6 : nontrivialA 6 = false := by
    have h := getA_two_prime_trivial 3 (by norm_num) (by decide)
    norm_num at h
    simp [nontrivialA, h]
  have h7 : nontrivialA 7 = false := by
    simp [nontrivialA, getA_prime_trivial 7 (by norm_num)]
  have h8 : nontrivialA 8 = true := by
    have h := getA_pow2 3 (le_refl 3)
    norm_num at h
    simp [nontrivialA, h]
  have e1 : findModlengthAux 14 3 = findModlengthAux 13 4 := step 13 3 h3
  have e2 : findModlengthAux 13 4 = findModlengthAux 12 5 := step 12 4 h4
  have e3 : findModlengthAux 12 5 = findModlengthAux 11 6 := step 11 5 h5
  have e4 : findModlengthAux 11 6 = findModlengthAux 10 7 := step 10 6 h6
  have e5 : findModlengthAux 10 7 = findModlengthAux 9 8 := step 9 7 h7
  have e6 : findModlengthAux 9 8 = 8 := stop2 8 8 h8
  show findModlengthAux 14 3 = 8
  rw [e1, e2, e3, e4, e5, e6]

theorem getC_eight : getC 8 = 7 := by
  have h := getC_prime 8 (by norm_num)
  have hle := h.2.1
  have hge := h.2.2 7 (by norm_num) (by norm_num)
  norm_num at hle
  omega

theorem queueGen_three : queueGen 3 = (5, 7, 8) := by
  rw [queueGen, if_neg (by norm_num)]
  show (getA (findModlength 3) % findModlength 3, getC (findModlength 3),
    findModlength 3) = (5, 7, 8)
  have h8 := getA_pow2 3 (le_refl 3)
  norm_num at h8
  rw [findModlength_three, h8, getC_eight]

/-- Witness for `queue_walk_visits_all` at queue size 3 (whose
constructor-chosen generator is `(5, 7, 8)`), start offset 1, and a
queue whose single matching unlocked slot is 0. -/
theorem queue_walk_visits_all_witness :
    (1 ≤ 3 ∧ queueGen 3 = (5, 7, 8) ∧ 1 < 3) ∧
    (walkIndices 5 7 8 3 1).length = 3 ∧
    (walkIndices 5 7 8 3 1).Nodup ∧
    (∀ s, s < 3 → s ∈ walkIndices 5 7 8 3 1) ∧
    GetRandomSearch 5 7 8 3 (fun j => j == 0) (fun _ => false) 1 =
      some 0 := by
  have h := queue_walk_visits_all 3 (by norm_num) 5 7 8 queueGen_three 1
    (by norm_num)
  exact ⟨⟨by norm_num, queueGen_three, by norm_num⟩,
    h.1, h.2.1, h.2.2.1,
    h.2.2.2 (fun j => j == 0) (fun _ => false) 0 (by norm_num) (by decide)
      (fun j _ hPj => by simpa using hPj)⟩

/-- Witness for `workerStatus_transitions` on the concrete trace
pause, resume, pause, stop. -/
theorem workerStatus_transitions_witness :
    protocolOK false
      [WSOp.pauseWorkers, WSOp.resumeWorkers, WSOp.pauseWorkers,
       WSOp.stopWorkers] = true ∧
    ∀ k, k < 4 →
      allowedTransition
        (statusAfter ([WSOp.pauseWorkers, WSOp.resumeWorkers,
          WSOp.pauseWorkers, WSOp.stopWorkers].take k))
        (statusAfter ([WSOp.pauseWorkers, WSOp.resumeWorkers,
          WSOp.pauseWorkers, WSOp.stopWorkers].take (k + 1))) := by
  refine ⟨by decide, fun k hk => ?_⟩
  exact (workerStatus_transitions _ (by decide) k (by simpa using hk)).1

end OcpSat
